import Mathlib

/-!
# zipcop: the archive patch engine and the event dispatcher of `main.go`

A shallow embedding of `addFileToZip` and of the event loop of `main`.

* Go maps are association lists with pairwise distinct keys (`AList`).  Go leaves the
  order of `range` over a map unspecified; the model visits the entries in list order,
  and every theorem quantifies over all maps, hence over every order.
* An archive is the list of its entries as `zip.OpenReader` returns them (`zipReader.File`),
  each a header and a content.
* The calls into `archive/zip` are modelled from the library: `CreateHeader` rewrites the
  header it is given and refuses some headers, a name ending in a slash makes a directory
  entry without content, `Copy` copies the entry as it is.  Whether a read or a write of the
  operating system fails is decided by an explicit environment (`PatchEnv`), so that the
  error paths of the source can be followed.
* One run of `addFileToZip` yields its return value, the world it leaves behind
  (the `shouldIgnore` map and the files), the entries it wrote and the sequence of calls it
  made.
* The dispatcher, the patch runs and the SIGUSR1 handler run as goroutines; the process
  model `step` interleaves them, each input handled in one piece.
-/

namespace Zipcop

/-! ## Data model -/

/-- A Go byte slice. -/
abbrev Bytes := List Nat

/-- The type of `filesToReplace` and `localFiles`: `map[string][]byte`. -/
abbrev ByteMap := AList (fun _ : String => Bytes)

/-- The type of `shouldIgnore`: `map[string]bool`. -/
abbrev IgnoreMap := AList (fun _ : String => Bool)

/-- The struct `zip.FileHeader`, with the fields that `CreateHeader` reads or rewrites and
the ones it leaves alone: `Flags` is a 16-bit number, `Modified` is `none` for the zero
time and the Unix seconds otherwise, `Extra` is a well-formed sequence of extra fields.
The version fields, the MS-DOS date and time, the checksum and the sizes, which the writer
computes from the other fields and from the content, are left out. -/
structure FileHeader where
  Name : String
  Comment : String
  NonUTF8 : Bool
  Method : Nat
  Flags : Nat
  Modified : Option Nat
  Extra : Bytes
  ExternalAttrs : Nat
deriving DecidableEq, Repr

/-- The constant `zip.Store`. -/
def Store : Nat := 0

/-- The constant `zip.Deflate`. -/
def Deflate : Nat := 8

/-- The struct `zip.File`, one entry of an archive: its header and its content.  An entry
whose name ends in a slash is a directory and has no content. -/
structure File where
  hdr : FileHeader
  body : Bytes
deriving DecidableEq, Repr

/-- The promoted field `f.Name` of a `zip.File`. -/
def File.Name (f : File) : String := f.hdr.Name

/-- What a path holds: a well-formed archive with its entries in order, a file that was to
be an archive and is not well formed (a write failed, or it lies over a longer older
file), or bytes that are no archive at all. -/
inductive Content where
  | archive (files : List File)
  | damaged
  | other (bytes : Bytes)
deriving DecidableEq, Repr

/-- The files of the machine, by path. -/
abbrev FS := String → Option Content

/-- Store `c` at path `p`. -/
def FS.put (fs : FS) (p : String) (c : Content) : FS :=
  fun q => if q = p then some c else fs q

/-- Remove the file at path `p`. -/
def FS.remove (fs : FS) (p : String) : FS :=
  fun q => if q = p then none else fs q

/-- The functions of `path/filepath` that `main.go` calls on a path. -/
structure PathLib where
  Abs : String → String
  Dir : String → String
  Base : String → String
  Join : String → String → String

/-- The mutable state shared by the dispatcher, the patch runs and the reset handler. -/
structure World where
  shouldIgnore : IgnoreMap
  fs : FS

/-- What the operating system does to the calls made for one entry: nothing, the read of
the source entry fails (`f.OpenRaw` inside `Copy`), the write of the entry header into the
temporary file fails, or the write of the entry content fails. -/
inductive Fault where
  | ok
  | source
  | header
  | body
deriving DecidableEq, Repr

/-- What the environment does to one run of `addFileToZip`: whether `zip.OpenReader` or
`os.OpenFile` is refused (permissions, descriptors), the fault of each entry in turn (none
once the list is used up), whether `os.Rename` fails, whether the final write of
`zipWriter.Close()` fails, and whether a file found at the temporary path is longer than
what the run writes into it. -/
structure PatchEnv where
  openFails : Bool
  tempFails : Bool
  faults : List Fault
  renameFails : Bool
  closeFails : Bool
  staleLonger : Bool

/-- A run in which no call of the operating system fails. -/
def PatchEnv.calm : PatchEnv := ⟨false, false, [], false, false, false⟩

/-- No entry meets a fault. -/
def Quiet (faults : List Fault) : Prop := ∀ x ∈ faults, x = Fault.ok

instance (faults : List Fault) : Decidable (Quiet faults) := by
  unfold Quiet; infer_instance

/-- No call of the run into the operating system fails. -/
def PatchEnv.NoFailure (env : PatchEnv) : Prop :=
  env.openFails = false ∧ env.tempFails = false ∧ Quiet env.faults ∧
    env.renameFails = false ∧ env.closeFails = false

instance (env : PatchEnv) : Decidable env.NoFailure := by
  unfold PatchEnv.NoFailure; infer_instance

/-- The calls of `addFileToZip` that can be observed from outside: `zip.OpenReader` (line
43), `os.OpenFile` (52), `CreateHeader` with the header passed (65), `Write` (66, 79),
`Copy` (71), `Create` (78), the write `shouldIgnore[zipPath] = true` (84), `os.Rename` (85)
and the three deferred closes (lines 59, 58, 48).  Calls of `log` are left out. -/
inductive Effect where
  | openReader (zipPath : String)
  | openFile (tempName : String)
  | createHeader (fh : FileHeader)
  | write (body : Bytes)
  | copy (f : File)
  | create (name : String)
  | mark (zipPath : String)
  | rename (oldpath newpath : String)
  | closeWriter
  | closeFile
  | closeReader
deriving DecidableEq, Repr

/-- The errors `addFileToZip` returns. -/
inductive PatchError where
  | openReader
  | openFile
deriving DecidableEq, Repr

/-- How a run of `addFileToZip` ends: `return nil`, `return err`, or a run-time panic. -/
inductive Outcome where
  | success
  | failure (e : PatchError)
  | panicked
deriving DecidableEq, Repr

/-- The `zip.Writer` on the temporary file: the entries put into the file so far, as a
reader of the finished archive returns them, and whether the file can no longer become a
well-formed archive (a write has failed, and every later write fails with it, or a header
that does not fit the format was put into the directory). -/
structure Writer where
  dir : List File
  failed : Bool
deriving DecidableEq, Repr

/-- The local variables of `addFileToZip` while its two loops run, and the calls made. -/
structure Job where
  localFiles : ByteMap
  zipWriter : Writer
  faults : List Fault
  trace : List Effect

/-! ## The library `archive/zip` -/

/-- The test `strings.HasSuffix(name, "/")`. -/
def isDirName (name : String) : Bool := name.data.getLast? == some '/'

/-- The second result of `detectUTF8` on a valid string: some rune lies outside the range
`0x20` to `0x7d` or is the backslash. -/
def requireUTF8 (s : String) : Bool :=
  s.data.any (fun c => c.toNat < 0x20 || c.toNat > 0x7d || c.toNat == 0x5c)

/-- Four bytes, little endian. -/
def le32 (n : Nat) : Bytes :=
  [n % 256, n / 256 % 256, n / 65536 % 256, n / 16777216 % 256]

/-- The extended-timestamp extra field that `CreateHeader` builds for the time `t`: the tag
`0x5455`, the size 5, the flag byte 1 and `uint32(t)`. -/
def extTime (t : Nat) : Bytes := [0x55, 0x54, 5, 0, 1] ++ le32 (t % 4294967296)

/-- What `CreateHeader(fh)` does to the header it is given, in its order: the UTF-8 flag
`0x800` is cleared under `NonUTF8` and set when the name or the comment needs it; when
`Modified` is set, an extended-timestamp field is appended to `Extra`; for a directory
name the method becomes `Store` and the data-descriptor flag `0x8` is cleared, otherwise
that flag is set. -/
def prepareHeader (fh : FileHeader) : FileHeader :=
  let flags1 :=
    if fh.NonUTF8 then fh.Flags &&& 0xF7FF
    else if requireUTF8 fh.Name || requireUTF8 fh.Comment then fh.Flags ||| 0x800
    else fh.Flags
  let extra1 :=
    match fh.Modified with
    | some t => fh.Extra ++ extTime t
    | none => fh.Extra
  if isDirName fh.Name then
    { fh with Method := Store, Flags := flags1 &&& 0xFFF7, Extra := extra1 }
  else
    { fh with Flags := flags1 ||| 0x8, Extra := extra1 }

/-- The time `msDosTimeToTime(0, 0)`, 30 November 1979, which a reader gives an entry
written with the zero time. -/
def dosZero : Nat := 312768000

/-- The header a reader of the finished archive returns for a header written by
`CreateHeader`: `Modified` is the time of the extended-timestamp field, or `dosZero` when
there is none, and `NonUTF8` is recomputed from the name, the comment and the flags. -/
def asRead (fh : FileHeader) : FileHeader :=
  { fh with
    NonUTF8 := (requireUTF8 fh.Name || requireUTF8 fh.Comment) && (fh.Flags &&& 0x800 == 0),
    Modified :=
      match fh.Modified with
      | some t => some (t % 4294967296)
      | none => some dosZero }

/-- How `CreateHeader` answers a header it has rewritten. -/
inductive Verdict where
  | accept
  | errAlgorithm
  | errLong
deriving DecidableEq, Repr

/-- The checks of `CreateHeader` on the rewritten header: outside directories the method
must have a registered compressor (`Store` or `Deflate`), else `ErrAlgorithm`; then, the
header already in the directory of the writer, `writeHeader` refuses a name or an `Extra`
longer than 65535 bytes. -/
def verdict (fh : FileHeader) : Verdict :=
  if !isDirName fh.Name && fh.Method != Store && fh.Method != Deflate then
    Verdict.errAlgorithm
  else if decide (fh.Name.utf8ByteSize > 65535) || decide (fh.Extra.length > 65535) then
    Verdict.errLong
  else Verdict.accept

/-- The call `CreateHeader(fh)` is answered with a writer and no error. -/
def Accepted (fh : FileHeader) : Prop := verdict (prepareHeader fh) = Verdict.accept

instance (fh : FileHeader) : Decidable (Accepted fh) := by
  unfold Accepted; infer_instance

/-- The entry that `CreateHeader(fh)` and `Write(w, body)` leave in the archive, as a
reader returns it: the rewritten header, and the bytes written, which a directory entry
does not take (`dirWriter.Write` returns an error, which the caller drops). -/
def madeEntry (fh : FileHeader) (body : Bytes) : File :=
  ⟨asRead (prepareHeader fh), if isDirName fh.Name then [] else body⟩

/-- The calls `w, _ := zipWriter.CreateHeader(fh)` and `io.Writer.Write(w, body)` of lines
65-66 and 78-79.  `Except.error` is the panic of `io.Writer.Write` on the nil `w` that
`CreateHeader` returns with an error: when an earlier write has failed, when the header is
refused, or when the write of the header fails.  A failed write of the content returns an
error, which the caller drops.  These calls do not read the source entry, so the fault
`source` leaves them alone. -/
def Writer.createAndWrite (w : Writer) (fh : FileHeader) (body : Bytes) (x : Fault) :
    Except Writer Writer :=
  if w.failed then Except.error w
  else
    match verdict (prepareHeader fh) with
    | Verdict.errAlgorithm => Except.error w
    | Verdict.errLong => Except.error ⟨w.dir, true⟩
    | Verdict.accept =>
      if x = Fault.header then Except.error ⟨w.dir, true⟩
      else if isDirName fh.Name then Except.ok ⟨w.dir ++ [madeEntry fh body], false⟩
      else if x = Fault.body then Except.ok ⟨w.dir, true⟩
      else Except.ok ⟨w.dir ++ [madeEntry fh body], false⟩

/-- The call `zipWriter.Copy(f)` of line 71, whose error the caller drops: when `f.OpenRaw`
fails nothing is written; when a write fails, now or earlier, the file is lost; otherwise
the entry is copied as it is. -/
def Writer.Copy (w : Writer) (f : File) (x : Fault) : Writer :=
  if x = Fault.source then w
  else if w.failed || decide (x ≠ Fault.ok) then ⟨w.dir, true⟩
  else ⟨w.dir ++ [f], false⟩

/-- What the temporary file holds once `zipWriter.Close()` has run. -/
def Writer.content (w : Writer) (closeFails : Bool) : Content :=
  if w.failed || closeFails then Content.damaged else Content.archive w.dir

/-! ## The archive patch engine, `addFileToZip` -/

/-- The fault of the entry handled next. -/
def Job.fault (j : Job) : Fault := j.faults.headD Fault.ok

/-- The body of the loop at lines 62-74 for the entry `f`.  `Except.error` is the panic of
line 66. -/
def copyStep (j : Job) (f : File) : Except Job Job :=
  match j.localFiles.lookup f.Name with
  | some body =>
    match j.zipWriter.createAndWrite f.hdr body j.fault with
    | Except.error w =>
      Except.error ⟨j.localFiles, w, j.faults.tail, j.trace ++ [Effect.createHeader f.hdr]⟩
    | Except.ok w =>
      Except.ok ⟨j.localFiles.erase f.Name, w, j.faults.tail,
        j.trace ++ [Effect.createHeader f.hdr, Effect.write body]⟩
  | none =>
    Except.ok ⟨j.localFiles, j.zipWriter.Copy f j.fault, j.faults.tail,
      j.trace ++ [Effect.copy f]⟩

/-- The loop at lines 62-74 over `zipReader.File`. -/
def copyLoop : List File → Job → Except Job Job
  | [], j => Except.ok j
  | f :: rest, j =>
    match copyStep j f with
    | Except.ok j1 => copyLoop rest j1
    | Except.error j1 => Except.error j1

/-- The header `zipWriter.Create(name)` passes on to `CreateHeader`:
`FileHeader{Name: name, Method: Deflate}`. -/
def newHeader (name : String) : FileHeader := ⟨name, "", false, Deflate, 0, none, [], 0⟩

/-- The body of the loop at lines 77-81 for the pair `k, v`.  `Except.error` is the panic
of line 79. -/
def addStep (j : Job) (k : String) (v : Bytes) : Except Job Job :=
  match j.zipWriter.createAndWrite (newHeader k) v j.fault with
  | Except.error w =>
    Except.error ⟨j.localFiles, w, j.faults.tail, j.trace ++ [Effect.create k]⟩
  | Except.ok w =>
    Except.ok ⟨j.localFiles, w, j.faults.tail, j.trace ++ [Effect.create k, Effect.write v]⟩

/-- The loop at lines 77-81 over the pairs left in `localFiles`. -/
def addLoop : List (Sigma fun _ : String => Bytes) → Job → Except Job Job
  | [], j => Except.ok j
  | e :: rest, j =>
    match addStep j e.1 e.2 with
    | Except.ok j1 => addLoop rest j1
    | Except.error j1 => Except.error j1

/-- Lines 61-81: both loops, from the entries of the source archive. -/
def writeEntries (files : List File) (j : Job) : Except Job Job :=
  match copyLoop files j with
  | Except.ok j1 => addLoop j1.localFiles.entries j1
  | Except.error j1 => Except.error j1

/-- Line 51: the name of the temporary file next to `zipPath`. -/
def tempName (L : PathLib) (zipPath : String) : String :=
  L.Join (L.Dir zipPath) ("." ++ L.Base zipPath ++ ".swp")

/-- The call `zip.OpenReader(zipPath)`: the entries of the archive at `zipPath`, or an error
when the call is refused or the path holds no well-formed archive. -/
def openReader (env : PatchEnv) (fs : FS) (zipPath : String) : Option (List File) :=
  if env.openFails then none
  else match fs zipPath with
    | some (Content.archive files) => some files
    | _ => none

/-- What the temporary file holds when the run is over.  Line 52 opens it with
`O_RDWR|O_CREATE` and without `O_TRUNC`: the run writes over the start of a file that is
already there, and what is left of a longer one behind the new bytes spoils the archive. -/
def tempContent (before : Option Content) (env : PatchEnv) (w : Writer) : Content :=
  if before.isSome && env.staleLonger then Content.damaged else w.content env.closeFails

/-- The three deferred calls, in the order they run at function exit. -/
def deferred : List Effect := [Effect.closeWriter, Effect.closeFile, Effect.closeReader]

/-- One run of `addFileToZip`: the value returned, the world left behind, the entries put
into the temporary file through `zipWriter`, and the calls made. -/
structure Run where
  result : Outcome
  world : World
  written : List File
  trace : List Effect

/-- Lines 36-40: the loop that copies `filesToReplace` into the fresh map `localFiles`, one
assignment `localFiles[k] = v` per pair. -/
def copyFiles (filesToReplace : ByteMap) : ByteMap :=
  filesToReplace.entries.foldr (fun e acc => acc.insert e.1 e.2) ∅

/-- The function `addFileToZip(zipPath)` of `main.go`, lines 33-88, run on the world `s`
with the global map `filesToReplace`.  The world returned is the one after the deferred
closes. -/
def addFileToZip (L : PathLib) (filesToReplace : ByteMap) (env : PatchEnv)
    (zipPath : String) (s : World) : Run :=
  let localFiles := copyFiles filesToReplace
  match openReader env s.fs zipPath with
  | none => ⟨Outcome.failure PatchError.openReader, s, [], [Effect.openReader zipPath]⟩
  | some files =>
    let tmp := tempName L zipPath
    if env.tempFails then
      ⟨Outcome.failure PatchError.openFile, s, [],
        [Effect.openReader zipPath, Effect.openFile tmp, Effect.closeReader]⟩
    else
      match writeEntries files
          ⟨localFiles, ⟨[], false⟩, env.faults,
            [Effect.openReader zipPath, Effect.openFile tmp]⟩ with
      | Except.error j =>
        ⟨Outcome.panicked,
          ⟨s.shouldIgnore, s.fs.put tmp (tempContent (s.fs tmp) env j.zipWriter)⟩,
          j.zipWriter.dir, j.trace ++ deferred⟩
      | Except.ok j =>
        let ignore := s.shouldIgnore.insert zipPath true
        let made := tempContent (s.fs tmp) env j.zipWriter
        let fs1 := s.fs.put tmp made
        let fs2 := if env.renameFails then fs1 else (fs1.remove tmp).put zipPath made
        ⟨Outcome.success, ⟨ignore, fs2⟩, j.zipWriter.dir,
          j.trace ++ [Effect.mark zipPath, Effect.rename tmp zipPath] ++ deferred⟩

/-- The entry that `zipWriter.Create(k)` and the write of `v` add for a pair of the map. -/
def newEntry (e : Sigma fun _ : String => Bytes) : File := madeEntry (newHeader e.1) e.2

/-- Closed form of the entries the loop at lines 62-74 adds when no call fails; proved equal
to what `copyLoop` does in `copyLoop_quiet`. -/
def rewritten : List File → ByteMap → List File
  | [], _ => []
  | f :: rest, m =>
    match m.lookup f.Name with
    | some body => madeEntry f.hdr body :: rewritten rest (m.erase f.Name)
    | none => f :: rewritten rest m

/-- Closed form of `localFiles` after the loop at lines 62-74. -/
def leftover : List File → ByteMap → ByteMap
  | [], m => m
  | f :: rest, m =>
    match m.lookup f.Name with
    | some _ => leftover rest (m.erase f.Name)
    | none => leftover rest m

/-- Closed form of all entries written by lines 61-81 when no call fails. -/
def patched (files : List File) (m : ByteMap) : List File :=
  rewritten files m ++ (leftover files m).entries.map newEntry

/-- What first match wins asks the loop to write for the entry `f`, when `earlier` holds the
names of the entries before it: the entry made from the header of `f` and the override
when the name of `f` is a key and has not occurred before, `f` itself otherwise. -/
def rewriteAt (m : ByteMap) (earlier : List String) (f : File) : File :=
  match m.lookup f.Name with
  | some body => if f.Name ∈ earlier then f else madeEntry f.hdr body
  | none => f

/-- The source entries that a key of the overrides names are accepted by `CreateHeader`. -/
def SourceAccepted (files : List File) (m : ByteMap) : Prop :=
  ∀ f ∈ files, f.Name ∈ m.keys → Accepted f.hdr

/-- The keys of the overrides are names of plain files that `Create` accepts: none ends
in a slash, none is longer than the format allows. -/
def KeysAccepted (m : ByteMap) : Prop :=
  ∀ k ∈ m.keys, isDirName k = false ∧ Accepted (newHeader k)

instance (files : List File) (m : ByteMap) : Decidable (SourceAccepted files m) := by
  unfold SourceAccepted; infer_instance

instance (m : ByteMap) : Decidable (KeysAccepted m) := by
  unfold KeysAccepted; infer_instance

/-- The archive at path `p`, when there is a well-formed one. -/
def World.archiveAt (s : World) (p : String) : Option (List File) :=
  match s.fs p with
  | some (Content.archive files) => some files
  | _ => none

/-- The calls made inside the two loops. -/
def Effect.inLoop : Effect → Bool
  | Effect.createHeader _ => true
  | Effect.write _ => true
  | Effect.copy _ => true
  | Effect.create _ => true
  | _ => false

/-- The local variables at the end of the loops, whether they ended normally or not. -/
def jobOf : Except Job Job → Job
  | Except.ok j => j
  | Except.error j => j

/-- In the sequence `tr`, every occurrence of the call `y` comes after a call `x`. -/
def Precedes (x y : Effect) (tr : List Effect) : Prop :=
  ∀ pre post, tr = pre ++ y :: post → x ∈ pre

/-! ## The suppression cache -/

/-- The check at line 147: `_, ok := shouldIgnore[zipPath]`. -/
def ignored (m : IgnoreMap) (zipPath : String) : Bool := (m.lookup zipPath).isSome

/-- The loop at lines 110-112, run on SIGUSR1: delete every key of `shouldIgnore`. -/
def resetAll (m : IgnoreMap) : IgnoreMap :=
  m.keys.foldl (fun acc k => acc.erase k) m

/-! ## The event dispatcher -/

/-- The function `filepath.Ext` on the reversed path: scan from the end up to the first
separator, and return the suffix that starts at the first dot met. -/
def extAux : List Char → List Char → List Char
  | [], _ => []
  | c :: rest, acc =>
    if c = '/' then [] else if c = '.' then '.' :: acc else extAux rest (c :: acc)

/-- The function `filepath.Ext`. -/
def Ext (path : String) : String := String.mk (extAux path.data.reverse [])

/-- An `fsnotify.Event`. -/
structure Event where
  Name : String
  Op : Nat

/-- The `fs.FileInfo` of `os.Stat`: `info.Mode().IsRegular()` and `info.IsDir()`. -/
structure FileInfo where
  IsRegular : Bool
  IsDir : Bool

/-- The bit masks `fsnotify.Create` and `fsnotify.CloseWrite`. -/
structure OpBits where
  Create : Nat
  CloseWrite : Nat

/-- The test `op&bit == bit`. -/
def hasOp (op bit : Nat) : Bool := op &&& bit == bit

/-- What the dispatcher does for an event. -/
inductive Action where
  | goPatch (zipPath : String)
  | watcherAdd (name : String)
deriving DecidableEq, Repr

/-- The settings of the process: the bit masks, the path functions, the `-recurse` flag
and the map `filesToReplace` built at lines 95-98. -/
structure Config where
  bits : OpBits
  paths : PathLib
  recurse : Bool
  filesToReplace : ByteMap

/-- Lines 159-166: a watch on a directory that was created, in recursive mode. -/
def watchPart (cfg : Config) (e : Event) (info : FileInfo) : List Action :=
  if hasOp e.Op cfg.bits.Create then
    if info.IsDir && cfg.recurse then [Action.watcherAdd e.Name] else []
  else []

/-- The body of the event case, lines 133-166, for the event `e`, with `stat` the result of
`os.Stat(event.Name)` (`none` for an error). -/
def handleEvent (cfg : Config) (shouldIgnore : IgnoreMap) (e : Event)
    (stat : Option FileInfo) : List Action :=
  match stat with
  | none => []
  | some info =>
    if hasOp e.Op cfg.bits.CloseWrite then
      if info.IsRegular && (Ext e.Name == ".zip" || Ext e.Name == ".jar") then
        let zipPath := cfg.paths.Abs e.Name
        if ignored shouldIgnore zipPath then []
        else Action.goPatch zipPath :: watchPart cfg e info
      else watchPart cfg e info
    else watchPart cfg e info

/-- The process: the shared world, the patch goroutines started and not yet run, the
watched directories, and whether the process has ended (`log.Fatal` or a panic). -/
structure Sys where
  world : World
  pending : List String
  watches : List String
  dead : Bool

/-- What can happen next: a change notification is handled (with the result of `os.Stat`
and whether `watcher.Add` succeeds), SIGUSR1 is handled, or a started patch runs. -/
inductive Input where
  | notify (e : Event) (stat : Option FileInfo) (addOk : Bool)
  | sigusr1
  | patch (zipPath : String) (env : PatchEnv)

/-- Carry out one action of the dispatcher. -/
def perform (addOk : Bool) (s : Sys) : Action → Sys
  | Action.goPatch zipPath => { s with pending := s.pending ++ [zipPath] }
  | Action.watcherAdd name =>
    if addOk then { s with watches := s.watches ++ [name] } else { s with dead := true }

/-- One step of the process. -/
def step (cfg : Config) (s : Sys) : Input → Sys
  | Input.notify e stat addOk =>
    if s.dead then s
    else (handleEvent cfg s.world.shouldIgnore e stat).foldl (perform addOk) s
  | Input.sigusr1 =>
    if s.dead then s
    else { s with world := ⟨resetAll s.world.shouldIgnore, s.world.fs⟩ }
  | Input.patch zipPath env =>
    if s.dead then s
    else if zipPath ∈ s.pending then
      let r := addFileToZip cfg.paths cfg.filesToReplace env zipPath s.world
      { s with world := r.world, pending := s.pending.erase zipPath,
               dead := decide (r.result = Outcome.panicked) }
    else s

/-- Run the process on a sequence of inputs. -/
def exec (cfg : Config) (s : Sys) (inputs : List Input) : Sys :=
  inputs.foldl (step cfg) s

/-- The input is the SIGUSR1 reset. -/
def Input.isReset : Input → Bool
  | Input.sigusr1 => true
  | _ => false

/-! ## Concrete data for the examples -/

/-- Path functions for slash-separated absolute paths in `Clean` form. -/
def unixPaths : PathLib where
  Abs := fun p => p
  Dir := fun p =>
    let d := String.mk (p.data.reverse.dropWhile (fun c => c != '/')).tail.reverse
    if d = "" then "/" else d
  Base := fun p => String.mk (p.data.reverse.takeWhile (fun c => c != '/')).reverse
  Join := fun d n => if d = "/" then d ++ n else d ++ "/" ++ n

/-- Bit masks for the examples: `Create` is bit 0 as in fsnotify, and `CloseWrite`, which
the fork in use adds, is taken to be bit 5. -/
def unixBits : OpBits := ⟨1, 32⟩

/-- Lines 95-98 of `main`: the map `filesToReplace`, with the three embedded byte slices
(the file `resources/hello.txt`) as parameters. -/
def filesToReplace (a_test_txt b_test_txt c_test_txt : Bytes) : ByteMap :=
  AList.insert "c/test.txt" c_test_txt
    (AList.insert "b/test.txt" b_test_txt (AList.insert "a/test.txt" a_test_txt ∅))

/-- A payload map with the single key `a/test.txt` and the content `HELLO`. -/
def hello : ByteMap := AList.insert "a/test.txt" [72, 69, 76, 76, 79] ∅

/-- An entry with the given name and content, deflated, with a modification time and no
extra field, as a reader returns it. -/
def entry (name : String) (body : Bytes) : File :=
  ⟨⟨name, "", false, Deflate, 0, some 1700000000, [], 0⟩, body⟩

/-- An archive with the name `a/test.txt` twice and one other entry. -/
def dupArchive : List File :=
  [entry "a/test.txt" [1], entry "b.txt" [2], entry "a/test.txt" [3]]

/-- An archive with pairwise distinct names, one of them `a/test.txt`. -/
def plainArchive : List File :=
  [entry "b.txt" [2], entry "a/test.txt" [1], entry "c.txt" [3]]

/-- The calls of a run on `plainArchive` at `/data/app.jar` up to the rename. -/
def callsBeforeRename : List Effect :=
  [Effect.openReader "/data/app.jar", Effect.openFile "/data/.app.jar.swp",
    Effect.copy (entry "b.txt" [2]), Effect.createHeader (entry "a/test.txt" [1]).hdr,
    Effect.write [72, 69, 76, 76, 79], Effect.copy (entry "c.txt" [3]),
    Effect.mark "/data/app.jar"]

/-- The settings of a process without `-recurse`, with `HELLO` as the embedded payload. -/
def cfg0 : Config :=
  ⟨unixBits, unixPaths, false,
    filesToReplace [72, 69, 76, 76, 79] [72, 69, 76, 76, 79] [72, 69, 76, 76, 79]⟩

/-- A process in which a patch of `/data/app.jar` has been started and has not run yet. -/
def sys0 : Sys :=
  ⟨⟨∅, FS.put (fun _ => none) "/data/app.jar" (Content.archive plainArchive)⟩,
    ["/data/app.jar"], ["/data"], false⟩

/-- A payload map whose single key ends in a slash. -/
def slashKey : ByteMap := AList.insert "d/" [1] ∅

/-- A world with the archive `plainArchive` at `/data/app.jar`, another file, and a path
marked in `shouldIgnore`. -/
def world1 : World :=
  ⟨AList.insert "/data/old.zip" true ∅,
    FS.put (FS.put (fun _ => none) "/data/notes.txt" (Content.other [110, 111]))
      "/data/app.jar" (Content.archive plainArchive)⟩

/-- A world without any file and with an empty `shouldIgnore`. -/
def emptyWorld : World := ⟨∅, fun _ => none⟩

/-- A world with one archive at `/data/app.jar` and an empty `shouldIgnore`. -/
def world0 (files : List File) : World :=
  ⟨∅, FS.put (fun _ => none) "/data/app.jar" (Content.archive files)⟩


/-! ## The two loops when no call fails -/

theorem quiet_tail {fl : List Fault} (h : Quiet fl) : Quiet fl.tail :=
  fun x hx => h x (List.mem_of_mem_tail hx)

theorem quiet_headD {fl : List Fault} (h : Quiet fl) : fl.headD Fault.ok = Fault.ok := by
  cases fl with
  | nil => rfl
  | cons x rest => exact h x (List.mem_cons_self x rest)

theorem prepareHeader_Name (fh : FileHeader) : (prepareHeader fh).Name = fh.Name := by
  by_cases h : isDirName fh.Name = true <;> simp [prepareHeader, h]

theorem madeEntry_Name (fh : FileHeader) (body : Bytes) :
    (madeEntry fh body).Name = fh.Name :=
  prepareHeader_Name fh

theorem madeEntry_body (fh : FileHeader) (body : Bytes) (h : isDirName fh.Name = false) :
    (madeEntry fh body).body = body := by
  simp [madeEntry, h]

theorem newEntry_Name (e : Sigma fun _ : String => Bytes) : (newEntry e).Name = e.1 :=
  madeEntry_Name (newHeader e.1) e.2

theorem createAndWrite_ok (w : Writer) (fh : FileHeader) (body : Bytes)
    (hw : w.failed = false) (ha : Accepted fh) :
    w.createAndWrite fh body Fault.ok = Except.ok ⟨w.dir ++ [madeEntry fh body], false⟩ := by
  unfold Accepted at ha
  simp only [Writer.createAndWrite, hw, ha, Bool.false_eq_true, if_false, reduceCtorEq]
  split <;> rfl

theorem copyLoop_quiet (files : List File) :
    ∀ (m : ByteMap) (w : Writer) (fl : List Fault) (tr : List Effect), Quiet fl →
      w.failed = false → (∀ f ∈ files, f.Name ∈ m.keys → Accepted f.hdr) →
      ∃ fl1 tr1, Quiet fl1 ∧ copyLoop files ⟨m, w, fl, tr⟩ =
        Except.ok ⟨leftover files m, ⟨w.dir ++ rewritten files m, false⟩, fl1, tr1⟩ := by
  induction files with
  | nil =>
    intro m w fl tr h hw _
    refine ⟨fl, tr, h, ?_⟩
    cases w with
    | mk d b =>
      simp only at hw
      simp [copyLoop, leftover, rewritten, hw]
  | cons f rest ih =>
    intro m w fl tr h hw hacc
    have hq := quiet_headD h
    have ht := quiet_tail h
    cases hl : m.lookup f.Name with
    | none =>
      have hacc1 : ∀ g ∈ rest, g.Name ∈ m.keys → Accepted g.hdr :=
        fun g hg hk => hacc g (List.mem_cons_of_mem f hg) hk
      have hc : w.Copy f Fault.ok = ⟨w.dir ++ [f], false⟩ := by
        simp [Writer.Copy, hw]
      obtain ⟨fl1, tr1, h1, h2⟩ := ih m ⟨w.dir ++ [f], false⟩ fl.tail
        (tr ++ [Effect.copy f]) ht rfl hacc1
      refine ⟨fl1, tr1, h1, ?_⟩
      simp only [copyLoop, copyStep, hl, Job.fault, hq, hc, h2, leftover, rewritten]
      simp
    | some body =>
      have hk : f.Name ∈ m.keys :=
        AList.mem_keys.1 (AList.lookup_isSome.1 (by simp [hl]))
      have ha : Accepted f.hdr := hacc f (List.mem_cons_self f rest) hk
      have hacc1 : ∀ g ∈ rest, g.Name ∈ (m.erase f.Name).keys → Accepted g.hdr := by
        intro g hg hk1
        exact hacc g (List.mem_cons_of_mem f hg)
          (AList.mem_keys.1 (AList.mem_erase.1 (AList.mem_keys.2 hk1)).2)
      obtain ⟨fl1, tr1, h1, h2⟩ := ih (m.erase f.Name)
        ⟨w.dir ++ [madeEntry f.hdr body], false⟩ fl.tail
        (tr ++ [Effect.createHeader f.hdr, Effect.write body]) ht rfl hacc1
      refine ⟨fl1, tr1, h1, ?_⟩
      simp only [copyLoop, copyStep, hl, Job.fault, hq, createAndWrite_ok w f.hdr body hw ha,
        h2, leftover, rewritten]
      simp

theorem addLoop_quiet (l : List (Sigma fun _ : String => Bytes)) :
    ∀ (m : ByteMap) (w : Writer) (fl : List Fault) (tr : List Effect), Quiet fl →
      w.failed = false → (∀ e ∈ l, Accepted (newHeader e.1)) →
      ∃ fl1 tr1, Quiet fl1 ∧ addLoop l ⟨m, w, fl, tr⟩ =
        Except.ok ⟨m, ⟨w.dir ++ l.map newEntry, false⟩, fl1, tr1⟩ := by
  induction l with
  | nil =>
    intro m w fl tr h hw _
    refine ⟨fl, tr, h, ?_⟩
    cases w with
    | mk d b =>
      simp only at hw
      simp [addLoop, hw]
  | cons e rest ih =>
    intro m w fl tr h hw hacc
    have hq := quiet_headD h
    have ht := quiet_tail h
    have ha : Accepted (newHeader e.1) := hacc e (List.mem_cons_self e rest)
    obtain ⟨fl1, tr1, h1, h2⟩ := ih m ⟨w.dir ++ [newEntry e], false⟩ fl.tail
      (tr ++ [Effect.create e.1, Effect.write e.2]) ht rfl
      (fun x hx => hacc x (List.mem_cons_of_mem e hx))
    refine ⟨fl1, tr1, h1, ?_⟩
    have hc := createAndWrite_ok w (newHeader e.1) e.2 hw ha
    simp only [addLoop, addStep, Job.fault, hq, hc]
    rw [show madeEntry (newHeader e.1) e.2 = newEntry e from rfl, h2]
    simp

theorem leftover_keys_subset (files : List File) :
    ∀ (m : ByteMap) (k : String), k ∈ (leftover files m).keys → k ∈ m.keys := by
  induction files with
  | nil => intro m k h; exact h
  | cons f rest ih =>
    intro m k h
    cases hl : m.lookup f.Name with
    | none =>
      simp only [leftover, hl] at h
      exact ih m k h
    | some body =>
      simp only [leftover, hl] at h
      exact AList.mem_keys.1 (AList.mem_erase.1 (AList.mem_keys.2 (ih _ k h))).2

theorem writeEntries_quiet (files : List File) (m : ByteMap) (fl : List Fault)
    (tr : List Effect) (h : Quiet fl) (hs : SourceAccepted files m)
    (hk : ∀ k ∈ m.keys, Accepted (newHeader k)) :
    ∃ fl1 tr1, writeEntries files ⟨m, ⟨[], false⟩, fl, tr⟩ =
      Except.ok ⟨leftover files m, ⟨patched files m, false⟩, fl1, tr1⟩ := by
  obtain ⟨fl1, tr1, h1, h2⟩ := copyLoop_quiet files m ⟨[], false⟩ fl tr h rfl hs
  have hk1 : ∀ e ∈ (leftover files m).entries, Accepted (newHeader e.1) := by
    intro e he
    exact hk e.1 (leftover_keys_subset files m e.1 (List.mem_keys_of_mem he))
  obtain ⟨fl2, tr2, _, h4⟩ := addLoop_quiet (leftover files m).entries (leftover files m)
    ⟨[] ++ rewritten files m, false⟩ fl1 tr1 h1 rfl hk1
  refine ⟨fl2, tr2, ?_⟩
  simp only [writeEntries, h2, patched]
  simpa using h4

theorem copyFiles_eq (m : ByteMap) : copyFiles m = m := by
  obtain ⟨l, nd⟩ := m
  induction l with
  | nil => rfl
  | cons e rest ih =>
    have nd1 : rest.NodupKeys := (List.nodupKeys_cons.1 nd).2
    have hne : e.1 ∉ rest.keys := (List.nodupKeys_cons.1 nd).1
    have h1 : copyFiles ⟨e :: rest, nd⟩ = (copyFiles ⟨rest, nd1⟩).insert e.1 e.2 := rfl
    rw [h1, ih nd1]
    apply AList.ext
    rw [AList.insert_entries_of_neg (fun h => hne (AList.mem_keys.1 h))]

theorem openReader_ok {env : PatchEnv} {fs : FS} {zipPath : String} {files : List File}
    (ho : env.openFails = false) (hf : fs zipPath = some (Content.archive files)) :
    openReader env fs zipPath = some files := by
  simp [openReader, ho, hf]

/-- A run in which no call fails and all headers are accepted returns nil, has written the
patched entries, marks `zipPath`, and leaves the patched archive at `zipPath` unless it
wrote over a longer older temporary file. -/
theorem addFileToZip_calm (L : PathLib) (O : ByteMap) (env : PatchEnv) (zipPath : String)
    (s : World) (files : List File) (henv : env.NoFailure)
    (hf : s.fs zipPath = some (Content.archive files)) (hs : SourceAccepted files O)
    (hk : ∀ k ∈ O.keys, Accepted (newHeader k)) :
    (addFileToZip L O env zipPath s).result = Outcome.success ∧
    (addFileToZip L O env zipPath s).written = patched files O ∧
    (addFileToZip L O env zipPath s).world.shouldIgnore = s.shouldIgnore.insert zipPath true ∧
    ((s.fs (tempName L zipPath) = none ∨ env.staleLonger = false) →
      (addFileToZip L O env zipPath s).world.archiveAt zipPath = some (patched files O)) := by
  obtain ⟨ho, ht, hq, hr, hc⟩ := henv
  obtain ⟨fl1, tr1, hw⟩ := writeEntries_quiet files O env.faults
    [Effect.openReader zipPath, Effect.openFile (tempName L zipPath)] hq hs hk
  simp only [addFileToZip, copyFiles_eq, openReader_ok ho hf, ht, hw, hr]
  refine ⟨rfl, rfl, rfl, ?_⟩
  intro hst
  have htc : tempContent (s.fs (tempName L zipPath)) env ⟨patched files O, false⟩ =
      Content.archive (patched files O) := by
    rcases hst with h | h
    · simp [tempContent, h, Writer.content, hc]
    · simp [tempContent, h, Writer.content, hc]
  simp [World.archiveAt, FS.put, htc]

/-! ## What the loops write -/

theorem rewritten_length (files : List File) :
    ∀ m : ByteMap, (rewritten files m).length = files.length := by
  induction files with
  | nil => intro m; rfl
  | cons f rest ih =>
    intro m
    cases hl : m.lookup f.Name <;> simp [rewritten, hl, ih]

theorem rewritten_map_Name (files : List File) :
    ∀ m : ByteMap, (rewritten files m).map File.Name = files.map File.Name := by
  induction files with
  | nil => intro m; rfl
  | cons f rest ih =>
    intro m
    cases hl : m.lookup f.Name with
    | none => simp [rewritten, hl, ih]
    | some body =>
      simp only [rewritten, hl, List.map_cons, ih, madeEntry_Name]
      rfl

theorem leftover_lookup (files : List File) :
    ∀ (m : ByteMap) (k : String), (leftover files m).lookup k =
      if k ∈ files.map File.Name then none else m.lookup k := by
  induction files with
  | nil => intro m k; simp [leftover]
  | cons f rest ih =>
    intro m k
    cases hl : m.lookup f.Name with
    | none =>
      simp only [leftover, hl, ih, List.map_cons, List.mem_cons]
      by_cases hk : k = f.Name
      · subst hk; simp [hl]
      · simp [hk]
    | some body =>
      simp only [leftover, hl, ih, List.map_cons, List.mem_cons]
      by_cases hk : k = f.Name
      · subst hk; simp
      · simp [hk, AList.lookup_erase_ne hk]

theorem rewritten_get (files : List File) :
    ∀ (m : ByteMap) (i : Nat) (h : i < files.length),
      (rewritten files m)[i]? =
        some (rewriteAt m ((files.take i).map File.Name) files[i]) := by
  induction files with
  | nil => intro m i h; simp at h
  | cons f rest ih =>
    intro m i h
    cases i with
    | zero =>
      cases hl : m.lookup f.Name <;> simp [rewritten, rewriteAt, hl]
    | succ i =>
      have hi : i < rest.length := by simpa using h
      cases hl : m.lookup f.Name with
      | none =>
        simp only [rewritten, hl, List.getElem?_cons_succ, ih m i hi, List.getElem_cons_succ,
          List.take_succ_cons, List.map_cons, rewriteAt, List.mem_cons]
        generalize rest[i] = g
        by_cases hn : g.Name = f.Name
        · rw [hn, hl]
        · simp [hn]
      | some body =>
        simp only [rewritten, hl, List.getElem?_cons_succ, ih (m.erase f.Name) i hi,
          List.getElem_cons_succ, List.take_succ_cons, List.map_cons, rewriteAt, List.mem_cons]
        generalize rest[i] = g
        by_cases hn : g.Name = f.Name
        · rw [hn, hl, AList.lookup_erase]
          simp
        · simp [hn, AList.lookup_erase_ne hn]

theorem erase_entries (m : ByteMap) (k : String) :
    (m.erase k).entries = m.entries.filter (fun e => decide (e.1 ≠ k)) := by
  obtain ⟨l, nd⟩ := m
  show List.kerase k l = l.filter (fun e => decide (e.1 ≠ k))
  induction l with
  | nil => rfl
  | cons e rest ih =>
    have nd1 : rest.NodupKeys := (List.nodupKeys_cons.1 nd).2
    have hne : e.1 ∉ rest.keys := (List.nodupKeys_cons.1 nd).1
    by_cases hk : k = e.1
    · subst hk
      rw [List.kerase_cons_eq rfl, List.filter_cons_of_neg (by simp)]
      symm
      show rest.filter (fun x => decide (x.1 ≠ e.1)) = rest
      have : rest.filter (fun x => decide (x.1 ≠ e.1)) = rest := by
        apply List.filter_eq_self.2
        intro x hx
        have : x.1 ∈ rest.keys := List.mem_keys_of_mem hx
        simp only [ne_eq, decide_not, Bool.not_eq_eq_eq_not, Bool.not_true, decide_eq_false_iff_not]
        intro hxe
        exact hne (hxe ▸ this)
      exact this
    · rw [List.kerase_cons_ne hk, ih nd1]
      have : e.1 ≠ k := fun h => hk h.symm
      simp [this]

theorem leftover_entries (files : List File) :
    ∀ m : ByteMap, (leftover files m).entries =
      m.entries.filter (fun e => decide (e.1 ∉ files.map File.Name)) := by
  induction files with
  | nil => intro m; simp [leftover]
  | cons f rest ih =>
    intro m
    cases hl : m.lookup f.Name with
    | none =>
      simp only [leftover, hl, ih]
      apply List.filter_congr
      intro e he
      have : e.1 ≠ f.Name := by
        intro h
        have : f.Name ∈ m.keys := h ▸ List.mem_keys_of_mem he
        exact (AList.lookup_eq_none.1 hl) (AList.mem_keys.2 this)
      simp [this]
    | some body =>
      simp only [leftover, hl, ih, erase_entries, List.filter_filter]
      apply List.filter_congr
      intro e _
      by_cases h : e.1 = f.Name <;> simp [h]

theorem rewritten_of_no_match (files : List File) (m : ByteMap)
    (h : ∀ k ∈ m.keys, k ∉ files.map File.Name) :
    rewritten files m = files ∧ leftover files m = m := by
  induction files with
  | nil => exact ⟨rfl, rfl⟩
  | cons f rest ih =>
    have hl : m.lookup f.Name = none := by
      apply AList.lookup_eq_none.2
      intro hm
      exact h f.Name (AList.mem_keys.1 hm) (by simp)
    have h1 : ∀ k ∈ m.keys, k ∉ rest.map File.Name := by
      intro k hk hr
      exact h k hk (by simp only [List.map_cons, List.mem_cons]; exact Or.inr hr)
    simp [rewritten, leftover, hl, ih h1]

/-! ## Entries by name -/

theorem rewritten_filter_unnamed (files : List File) (K : List String) :
    ∀ m : ByteMap, (∀ k ∈ m.keys, k ∈ K) →
      (rewritten files m).filter (fun f => decide (f.Name ∉ K)) =
        files.filter (fun f => decide (f.Name ∉ K)) := by
  induction files with
  | nil => intro m _; rfl
  | cons f rest ih =>
    intro m hK
    cases hl : m.lookup f.Name with
    | none => simp only [rewritten, hl, List.filter_cons, ih m hK]
    | some body =>
      have hmem : f.Name ∈ K :=
        hK _ (AList.mem_keys.1 (AList.lookup_isSome.1 (by simp [hl])))
      have hK1 : ∀ k ∈ (m.erase f.Name).keys, k ∈ K := by
        intro k hk
        exact hK k (AList.mem_keys.1 (AList.mem_erase.1 (AList.mem_keys.2 hk)).2)
      have h1 : (madeEntry f.hdr body).Name = f.Name := madeEntry_Name f.hdr body
      simp only [rewritten, hl, List.filter_cons, ih _ hK1, h1, hmem, not_true_eq_false,
        decide_False, Bool.false_eq_true, if_false]

theorem rewritten_filter_name (files : List File) (k : String) :
    ∀ m : ByteMap, (rewritten files m).filter (fun f => decide (f.Name = k)) =
      match m.lookup k, files.filter (fun f => decide (f.Name = k)) with
      | some v, f :: tl => madeEntry f.hdr v :: tl
      | _, l => l := by
  induction files with
  | nil => intro m; cases m.lookup k <;> rfl
  | cons f rest ih =>
    intro m
    by_cases hk : f.Name = k
    · cases hl : m.lookup f.Name with
      | none =>
        have hl1 : m.lookup k = none := hk ▸ hl
        have := ih m
        rw [hl1] at this
        simp only [rewritten, hl, List.filter_cons, hk, decide_True, if_true, hl1, this]
      | some body =>
        have hl1 : m.lookup k = some body := hk ▸ hl
        have h1 : (madeEntry f.hdr body).Name = k := (madeEntry_Name f.hdr body).trans hk
        have := ih (m.erase f.Name)
        rw [hk, AList.lookup_erase] at this
        simp only [rewritten, hl, List.filter_cons, hk, decide_True, if_true, hl1, this, h1]
    · have hk1 : k ≠ f.Name := fun h => hk h.symm
      cases hl : m.lookup f.Name with
      | none =>
        simp only [rewritten, hl, List.filter_cons, hk, decide_False, Bool.false_eq_true,
          if_false, ih m]
      | some body =>
        have h1 : (madeEntry f.hdr body).Name = f.Name := madeEntry_Name f.hdr body
        simp only [rewritten, hl, List.filter_cons, h1, hk, decide_False, Bool.false_eq_true,
          if_false, ih (m.erase f.Name), AList.lookup_erase_ne hk1]

theorem entries_filter_name (k : String) :
    ∀ (l : List (Sigma fun _ : String => Bytes)), l.NodupKeys →
      (l.map newEntry).filter (fun f => decide (f.Name = k)) =
        match l.dlookup k with
        | some v => [newEntry ⟨k, v⟩]
        | none => [] := by
  intro l
  induction l with
  | nil => intro _; rfl
  | cons e rest ih =>
    intro nd
    have nd1 : rest.NodupKeys := (List.nodupKeys_cons.1 nd).2
    have hne : e.1 ∉ rest.keys := (List.nodupKeys_cons.1 nd).1
    obtain ⟨a, b⟩ := e
    by_cases hk : a = k
    · subst hk
      have h0 : rest.dlookup a = none := List.dlookup_eq_none.2 hne
      have h1 : (newEntry ⟨a, b⟩).Name = a := newEntry_Name ⟨a, b⟩
      have := ih nd1
      rw [h0] at this
      simp only [List.map_cons, List.filter_cons, h1, decide_True, if_true, this,
        List.dlookup_cons_eq]
    · have hk1 : k ≠ a := fun h => hk h.symm
      have h1 : (newEntry ⟨a, b⟩).Name = a := newEntry_Name ⟨a, b⟩
      simp only [List.map_cons, List.filter_cons, h1, hk, decide_False, Bool.false_eq_true,
        if_false, ih nd1]
      rw [List.dlookup_cons_ne _ _ hk1]

theorem added_filter_name (files : List File) (m : ByteMap) (k : String) :
    ((leftover files m).entries.map newEntry).filter (fun f => decide (f.Name = k)) =
      if k ∈ files.map File.Name then []
      else match m.lookup k with
        | some v => [newEntry ⟨k, v⟩]
        | none => [] := by
  rw [entries_filter_name k _ (leftover files m).nodupKeys]
  have := leftover_lookup files m k
  unfold AList.lookup at this
  rw [this]
  by_cases h : k ∈ files.map File.Name
  · simp only [h, if_true]
  · simp only [h, if_false]
    rfl

theorem added_names_subset (files : List File) (m : ByteMap) :
    ∀ f ∈ (leftover files m).entries.map newEntry, f.Name ∈ m.keys := by
  intro f hf
  rw [leftover_entries] at hf
  obtain ⟨e, he, rfl⟩ := List.mem_map.1 hf
  rw [newEntry_Name]
  exact List.mem_keys_of_mem (List.mem_filter.1 he).1

/-! ## Counting entries -/

theorem length_filter_split {α : Type} (p q : α → Bool) (h : ∀ a, q a = !p a) (l : List α) :
    l.length = (l.filter p).length + (l.filter q).length := by
  induction l with
  | nil => rfl
  | cons a rest ih =>
    cases hp : p a
    · simp [List.filter_cons, hp, h a, ih]; omega
    · simp [List.filter_cons, hp, h a, ih]; omega

theorem filter_name_length (files : List File) (k : String) :
    (files.filter (fun f => decide (f.Name = k))).length = (files.map File.Name).count k := by
  induction files with
  | nil => rfl
  | cons f rest ih =>
    by_cases h : f.Name = k <;> simp [List.filter_cons, List.count_cons, h, ih]

theorem matched_count (names K : List String) (hK : K.Nodup)
    (h1 : ∀ k ∈ K, names.count k ≤ 1) :
    (names.filter (fun n => decide (n ∈ K))).length =
      (K.filter (fun k => decide (k ∈ names))).length := by
  apply List.Perm.length_eq
  apply (List.perm_ext_iff_of_nodup ?_ (hK.filter _)).2
  · intro a
    simp only [List.mem_filter, decide_eq_true_eq]
    tauto
  · rw [List.nodup_iff_count_le_one]
    intro a
    by_cases ha : a ∈ K
    · rw [List.count_filter (by simpa using ha)]
      exact h1 a ha
    · rw [List.count_eq_zero_of_not_mem]
      · omega
      · intro hm
        exact ha (by simpa using (List.mem_filter.1 hm).2)

theorem patched_length (files : List File) (m : ByteMap) :
    (patched files m).length =
      files.length + (m.keys.filter (fun k => decide (k ∉ files.map File.Name))).length := by
  rw [patched, List.length_append, rewritten_length, List.length_map, leftover_entries,
    AList.keys, List.keys, List.filter_map, List.length_map]
  rfl

theorem patched_length_distinct (files : List File) (m : ByteMap)
    (h1 : ∀ k ∈ m.keys, (files.map File.Name).count k ≤ 1) :
    (patched files m).length =
      (files.filter (fun f => decide (f.Name ∉ m.keys))).length + m.keys.length := by
  have e1 := length_filter_split (fun f : File => decide (f.Name ∈ m.keys))
    (fun f => decide (f.Name ∉ m.keys)) (by intro a; simp only [decide_not]) files
  have e2 := length_filter_split (fun k : String => decide (k ∈ files.map File.Name))
    (fun k => decide (k ∉ files.map File.Name)) (by intro a; simp only [decide_not]) m.keys
  have e3 := matched_count (files.map File.Name) m.keys m.keys_nodup h1
  rw [List.filter_map, List.length_map] at e3
  have e4 : (files.filter ((fun n => decide (n ∈ m.keys)) ∘ File.Name)).length =
      (files.filter (fun f : File => decide (f.Name ∈ m.keys))).length := rfl
  rw [patched_length]
  omega


theorem madeEntry_eq (fh : FileHeader) (body : Bytes) (h : isDirName fh.Name = false) :
    madeEntry fh body = ⟨asRead (prepareHeader fh), body⟩ := by
  simp [madeEntry, h]

theorem named_entries (files : List File) (m : ByteMap) (k : String) (v : Bytes)
    (hl : m.lookup k = some v) (hd : isDirName k = false) :
    ∃ h : FileHeader, h.Name = k ∧
      (patched files m).filter (fun f => decide (f.Name = k)) =
        ⟨h, v⟩ :: (files.filter (fun f => decide (f.Name = k))).tail := by
  rw [patched, List.filter_append, rewritten_filter_name, added_filter_name, hl]
  cases hfl : files.filter (fun f => decide (f.Name = k)) with
  | nil =>
    have hk : k ∉ files.map File.Name := by
      intro hm
      obtain ⟨f, hf, hn⟩ := List.mem_map.1 hm
      have : f ∈ files.filter (fun f => decide (f.Name = k)) :=
        List.mem_filter.2 ⟨hf, by simpa using hn⟩
      rw [hfl] at this
      exact absurd this (List.not_mem_nil f)
    refine ⟨asRead (prepareHeader (newHeader k)), prepareHeader_Name (newHeader k), ?_⟩
    simp only [if_neg hk, List.nil_append, List.tail_nil]
    rw [show newEntry ⟨k, v⟩ = madeEntry (newHeader k) v from rfl, madeEntry_eq _ _ hd]
  | cons f tl =>
    have hf : f ∈ files.filter (fun f => decide (f.Name = k)) := by
      rw [hfl]; exact List.mem_cons_self f tl
    have hn : f.Name = k := by simpa using (List.mem_filter.1 hf).2
    have hk : k ∈ files.map File.Name :=
      List.mem_map.2 ⟨f, (List.mem_filter.1 hf).1, hn⟩
    have hd1 : isDirName f.hdr.Name = false := by
      rw [show f.hdr.Name = f.Name from rfl, hn]; exact hd
    refine ⟨asRead (prepareHeader f.hdr), (prepareHeader_Name f.hdr).trans hn, ?_⟩
    simp only [if_pos hk, List.append_nil, List.tail_cons]
    rw [madeEntry_eq _ _ hd1]

theorem mem_keys_of_lookup {m : ByteMap} {k : String} {v : Bytes} (hl : m.lookup k = some v) :
    k ∈ m.keys :=
  AList.mem_keys.1 (AList.lookup_isSome.1 (by simp [hl]))

/-- C1 (amended): when no call fails, `CreateHeader` accepts the headers it is given and no
key of the overrides ends in a slash, the entries `addFileToZip` writes (and leaves at
`zipPath`, unless it wrote over a longer older temporary file) keep the entries whose names
are no keys of the overrides unchanged and in order; for each key `k` the first entry named
`k` carries the override bytes and the other entries named `k` are the later source entries
of that name, unchanged; the entry count is the number of source entries plus the number
of keys that name no source entry.  When no key names more than one source entry, there is
exactly one entry per key, with the override bytes, and the count is the number of source
entries not named by a key plus the number of keys. -/
theorem patched_entries (L : PathLib) (O : ByteMap) (env : PatchEnv) (zipPath : String)
    (s : World) (files : List File) (henv : env.NoFailure)
    (hf : s.fs zipPath = some (Content.archive files)) (hs : SourceAccepted files O)
    (hk : KeysAccepted O) :
    ∃ out, (addFileToZip L O env zipPath s).written = out ∧
      ((s.fs (tempName L zipPath) = none ∨ env.staleLonger = false) →
        (addFileToZip L O env zipPath s).world.archiveAt zipPath = some out) ∧
      out.filter (fun f => decide (f.Name ∉ O.keys)) =
        files.filter (fun f => decide (f.Name ∉ O.keys)) ∧
      (∀ k v, O.lookup k = some v → ∃ h : FileHeader, h.Name = k ∧
        out.filter (fun f => decide (f.Name = k)) =
          ⟨h, v⟩ :: (files.filter (fun f => decide (f.Name = k))).tail) ∧
      out.length =
        files.length + (O.keys.filter (fun k => decide (k ∉ files.map File.Name))).length ∧
      ((∀ k ∈ O.keys, (files.map File.Name).count k ≤ 1) →
        (∀ k v, O.lookup k = some v → ∃ h : FileHeader, h.Name = k ∧
          out.filter (fun f => decide (f.Name = k)) = [⟨h, v⟩]) ∧
        out.length =
          (files.filter (fun f => decide (f.Name ∉ O.keys))).length + O.keys.length) := by
  have hcalm := addFileToZip_calm L O env zipPath s files henv hf hs (fun k h => (hk k h).2)
  have hnamed : ∀ k v, O.lookup k = some v → ∃ h : FileHeader, h.Name = k ∧
      (patched files O).filter (fun f => decide (f.Name = k)) =
        ⟨h, v⟩ :: (files.filter (fun f => decide (f.Name = k))).tail :=
    fun k v hl => named_entries files O k v hl (hk k (mem_keys_of_lookup hl)).1
  refine ⟨patched files O, hcalm.2.1, hcalm.2.2.2, ?_, hnamed, patched_length files O, ?_⟩
  · rw [patched, List.filter_append, rewritten_filter_unnamed files O.keys O (fun k hk => hk)]
    have : ((leftover files O).entries.map newEntry).filter
        (fun f => decide (f.Name ∉ O.keys)) = [] := by
      apply List.filter_eq_nil_iff.2
      intro f hf
      simp [added_names_subset files O f hf]
    rw [this, List.append_nil]
  · intro h1
    refine ⟨?_, patched_length_distinct files O h1⟩
    intro k v hl
    obtain ⟨h, hn, he⟩ := hnamed k v hl
    refine ⟨h, hn, ?_⟩
    have hc := h1 k (mem_keys_of_lookup hl)
    rw [← filter_name_length] at hc
    rw [he]
    cases hfl : files.filter (fun f => decide (f.Name = k)) with
    | nil => rfl
    | cons f tl =>
      rw [hfl] at hc
      cases tl with
      | nil => rfl
      | cons g tl2 => simp at hc

/-- Witness of C1 (amended): an archive with pairwise distinct names, so that the hypothesis
of the last part holds as well. -/
theorem patched_entries_witness :
    PatchEnv.calm.NoFailure ∧
    (world0 plainArchive).fs "/data/app.jar" = some (Content.archive plainArchive) ∧
    SourceAccepted plainArchive hello ∧ KeysAccepted hello ∧
    (∀ k ∈ hello.keys, (plainArchive.map File.Name).count k ≤ 1) ∧
    ∃ out, (addFileToZip unixPaths hello PatchEnv.calm "/data/app.jar"
        (world0 plainArchive)).written = out ∧
      (((world0 plainArchive).fs (tempName unixPaths "/data/app.jar") = none ∨
          PatchEnv.calm.staleLonger = false) →
        (addFileToZip unixPaths hello PatchEnv.calm "/data/app.jar"
          (world0 plainArchive)).world.archiveAt "/data/app.jar" = some out) ∧
      out.filter (fun f => decide (f.Name ∉ hello.keys)) =
        plainArchive.filter (fun f => decide (f.Name ∉ hello.keys)) ∧
      (∀ k v, hello.lookup k = some v → ∃ h : FileHeader, h.Name = k ∧
        out.filter (fun f => decide (f.Name = k)) =
          ⟨h, v⟩ :: (plainArchive.filter (fun f => decide (f.Name = k))).tail) ∧
      out.length = plainArchive.length +
        (hello.keys.filter (fun k => decide (k ∉ plainArchive.map File.Name))).length ∧
      ((∀ k ∈ hello.keys, (plainArchive.map File.Name).count k ≤ 1) →
        (∀ k v, hello.lookup k = some v → ∃ h : FileHeader, h.Name = k ∧
          out.filter (fun f => decide (f.Name = k)) = [⟨h, v⟩]) ∧
        out.length =
          (plainArchive.filter (fun f => decide (f.Name ∉ hello.keys))).length +
            hello.keys.length) :=
  ⟨by decide, by decide, by decide, by decide, by decide,
    patched_entries unixPaths hello PatchEnv.calm "/data/app.jar" (world0 plainArchive)
      plainArchive (by decide) (by decide) (by decide) (by decide)⟩

/-- C1 as stated fails: on an archive that holds the name `a/test.txt` twice, with the
single override `a/test.txt`, three entries are written, the last one named by the override
and still with its source content, while the claimed count is one entry not named by the
override plus one key. -/
theorem entry_count_counterexample :
    (addFileToZip unixPaths hello PatchEnv.calm "/data/app.jar"
      (world0 dupArchive)).written.map (fun f => (f.Name, f.body)) =
        [("a/test.txt", [72, 69, 76, 76, 79]), ("b.txt", [2]), ("a/test.txt", [3])] ∧
    (dupArchive.filter (fun f => decide (f.Name ∉ hello.keys))).length + hello.keys.length
      = 2 ∧
    (addFileToZip unixPaths hello PatchEnv.calm "/data/app.jar"
      (world0 dupArchive)).written.length ≠
        (dupArchive.filter (fun f => decide (f.Name ∉ hello.keys))).length +
          hello.keys.length ∧
    ((addFileToZip unixPaths hello PatchEnv.calm "/data/app.jar"
      (world0 dupArchive)).world.archiveAt "/data/app.jar").map List.length = some 3 := by
  decide

/-! ## The claims on the loop and on the appended entries -/

theorem or_and_self (x b : Nat) : (x ||| b) &&& b = b := by
  apply Nat.eq_of_testBit_eq
  intro i
  rw [Nat.testBit_and, Nat.testBit_or]
  cases Nat.testBit b i <;> simp

theorem prepareHeader_fields (fh : FileHeader) (hd : isDirName fh.Name = false) :
    (asRead (prepareHeader fh)).Name = fh.Name ∧
    (asRead (prepareHeader fh)).Comment = fh.Comment ∧
    (asRead (prepareHeader fh)).Method = fh.Method ∧
    (asRead (prepareHeader fh)).ExternalAttrs = fh.ExternalAttrs ∧
    (asRead (prepareHeader fh)).Flags &&& 8 = 8 ∧
    (asRead (prepareHeader fh)).Extra =
      match fh.Modified with
      | some t => fh.Extra ++ extTime t
      | none => fh.Extra := by
  simp only [asRead, prepareHeader, hd, Bool.false_eq_true, if_false, true_and, and_true]
  exact or_and_self _ 8

/-- C2 as stated fails: the entry written for the first match does not carry the header of
the source entry.  `CreateHeader` rewrites the header it is given: on the first entry of
`dupArchive` the data-descriptor flag is set and an extended-timestamp field is appended
to `Extra`. -/
theorem source_header_counterexample :
    hello.lookup "a/test.txt" = some [72, 69, 76, 76, 79] ∧
    (dupArchive.map File.hdr)[0]? =
      some ⟨"a/test.txt", "", false, 8, 0, some 1700000000, [], 0⟩ ∧
    ((jobOf (copyLoop dupArchive ⟨hello, ⟨[], false⟩, [], []⟩)).zipWriter.dir.map File.hdr)[0]?
      = some ⟨"a/test.txt", "", false, 8, 8, some 1700000000,
          [85, 84, 5, 0, 1, 0, 241, 83, 101], 0⟩ ∧
    ((jobOf (copyLoop dupArchive ⟨hello, ⟨[], false⟩, [], []⟩)).zipWriter.dir.map File.hdr)[0]?
      ≠ (dupArchive.map File.hdr)[0]? := by
  decide

/-- C2 (amended): when no call fails, `CreateHeader` accepts the headers it is given and no
key of the overrides ends in a slash, the loop of `addFileToZip` writes one entry per
source entry, at the same position: the first source entry whose name is a key is written
with the override bytes as content under the header `CreateHeader` makes of its header
(same name, comment, method and external attributes; the data-descriptor flag set and,
when the entry has a modification time, an extended-timestamp field appended to `Extra`);
every later entry of that name and every entry whose name is no key is copied verbatim;
afterwards the names of all source entries are gone from the working copy `localFiles`,
whose other keys are untouched. -/
theorem first_match_wins (files : List File) (O : ByteMap) (w : Writer) (fl : List Fault)
    (tr : List Effect) (hq : Quiet fl) (hw : w.failed = false)
    (hs : SourceAccepted files O) (hd : ∀ k ∈ O.keys, isDirName k = false) :
    ∃ j out, copyLoop files ⟨O, w, fl, tr⟩ = Except.ok j ∧
      j.zipWriter.dir = w.dir ++ out ∧ out.length = files.length ∧
      (∀ (i : Nat) (h : i < files.length) (body : Bytes),
        O.lookup files[i].Name = some body →
        files[i].Name ∉ (files.take i).map File.Name →
        ∃ fh : FileHeader, out[i]? = some ⟨fh, body⟩ ∧
          fh.Name = files[i].hdr.Name ∧ fh.Comment = files[i].hdr.Comment ∧
          fh.Method = files[i].hdr.Method ∧
          fh.ExternalAttrs = files[i].hdr.ExternalAttrs ∧ fh.Flags &&& 8 = 8 ∧
          fh.Extra =
            match files[i].hdr.Modified with
            | some t => files[i].hdr.Extra ++ extTime t
            | none => files[i].hdr.Extra) ∧
      (∀ (i : Nat) (h : i < files.length),
        files[i].Name ∈ (files.take i).map File.Name → out[i]? = some files[i]) ∧
      (∀ (i : Nat) (h : i < files.length),
        O.lookup files[i].Name = none → out[i]? = some files[i]) ∧
      (∀ k, j.localFiles.lookup k = if k ∈ files.map File.Name then none else O.lookup k) := by
  obtain ⟨fl1, tr1, _, h2⟩ := copyLoop_quiet files O w fl tr hq hw hs
  refine ⟨_, rewritten files O, h2, rfl, rewritten_length files O, ?_, ?_, ?_, ?_⟩
  · intro i h body hl hn
    have hdir : isDirName files[i].hdr.Name = false := hd _ (mem_keys_of_lookup hl)
    refine ⟨asRead (prepareHeader files[i].hdr), ?_, prepareHeader_fields _ hdir⟩
    rw [rewritten_get files O i h]
    simp only [rewriteAt, hl, if_neg hn, madeEntry_eq _ _ hdir]
  · intro i h hn
    rw [rewritten_get files O i h]
    simp only [rewriteAt, hn, if_true]
    cases O.lookup files[i].Name <;> rfl
  · intro i h hl
    rw [rewritten_get files O i h]
    simp [rewriteAt, hl]
  · intro k
    exact leftover_lookup files O k

/-- Witness of C2 (amended): the loop on an archive that holds the name `a/test.txt`
twice. -/
theorem first_match_wins_witness :
    Quiet [] ∧ (⟨[], false⟩ : Writer).failed = false ∧ SourceAccepted dupArchive hello ∧
    (∀ k ∈ hello.keys, isDirName k = false) ∧
    ∃ j out, copyLoop dupArchive ⟨hello, ⟨[], false⟩, [], []⟩ = Except.ok j ∧
      j.zipWriter.dir = (⟨[], false⟩ : Writer).dir ++ out ∧ out.length = dupArchive.length ∧
      (∀ (i : Nat) (h : i < dupArchive.length) (body : Bytes),
        hello.lookup dupArchive[i].Name = some body →
        dupArchive[i].Name ∉ (dupArchive.take i).map File.Name →
        ∃ fh : FileHeader, out[i]? = some ⟨fh, body⟩ ∧
          fh.Name = dupArchive[i].hdr.Name ∧ fh.Comment = dupArchive[i].hdr.Comment ∧
          fh.Method = dupArchive[i].hdr.Method ∧
          fh.ExternalAttrs = dupArchive[i].hdr.ExternalAttrs ∧ fh.Flags &&& 8 = 8 ∧
          fh.Extra =
            match dupArchive[i].hdr.Modified with
            | some t => dupArchive[i].hdr.Extra ++ extTime t
            | none => dupArchive[i].hdr.Extra) ∧
      (∀ (i : Nat) (h : i < dupArchive.length),
        dupArchive[i].Name ∈ (dupArchive.take i).map File.Name →
        out[i]? = some dupArchive[i]) ∧
      (∀ (i : Nat) (h : i < dupArchive.length),
        hello.lookup dupArchive[i].Name = none → out[i]? = some dupArchive[i]) ∧
      (∀ k, j.localFiles.lookup k =
        if k ∈ dupArchive.map File.Name then none else hello.lookup k) :=
  ⟨by decide, rfl, by decide, by decide,
    first_match_wins dupArchive hello ⟨[], false⟩ [] [] (by decide) rfl (by decide)
      (by decide)⟩

theorem newEntry_pair (e : Sigma fun _ : String => Bytes) (hd : isDirName e.1 = false) :
    ((newEntry e).Name, (newEntry e).body) = (e.1, e.2) := by
  rw [newEntry_Name]
  rw [show newEntry e = madeEntry (newHeader e.1) e.2 from rfl, madeEntry_body _ _ hd]

/-- C3 as stated fails: for a key that ends in a slash the new entry is a directory entry;
`Write` on it returns an error, which line 79 drops, and the entry is left without content
instead of the override bytes. -/
theorem slash_key_counterexample :
    (addFileToZip unixPaths slashKey PatchEnv.calm "/data/app.jar"
      (world0 plainArchive)).result = Outcome.success ∧
    slashKey.lookup "d/" = some [1] ∧
    (plainArchive.map File.Name = ["b.txt", "a/test.txt", "c.txt"]) ∧
    (addFileToZip unixPaths slashKey PatchEnv.calm "/data/app.jar"
      (world0 plainArchive)).written.map (fun f => (f.Name, f.body)) =
        [("b.txt", [2]), ("a/test.txt", [1]), ("c.txt", [3]), ("d/", [])] := by
  decide

/-- C3 (amended): when no call fails, `CreateHeader` accepts the headers it is given and no
key of the overrides ends in a slash, the entries `addFileToZip` writes (and leaves at
`zipPath`, unless it wrote over a longer older temporary file) are one entry per source
entry, in the source order and under the source names, followed by exactly one new entry
for each key `k` of the overrides that names no source entry, with `k` as name and the
override bytes as content; when no key names a source entry, they are the source entries
unchanged followed by one new entry per key. -/
theorem unmatched_overrides_appended (L : PathLib) (O : ByteMap) (env : PatchEnv)
    (zipPath : String) (s : World) (files : List File) (henv : env.NoFailure)
    (hf : s.fs zipPath = some (Content.archive files)) (hs : SourceAccepted files O)
    (hk : KeysAccepted O) :
    ∃ pre added,
      (addFileToZip L O env zipPath s).written = pre ++ added ∧
      ((s.fs (tempName L zipPath) = none ∨ env.staleLonger = false) →
        (addFileToZip L O env zipPath s).world.archiveAt zipPath = some (pre ++ added)) ∧
      pre.map File.Name = files.map File.Name ∧
      added.map (fun f => (f.Name, f.body)) =
        (O.entries.filter (fun e => decide (e.1 ∉ files.map File.Name))).map
          (fun e => (e.1, e.2)) ∧
      added.map File.Name = O.keys.filter (fun k => decide (k ∉ files.map File.Name)) ∧
      ((∀ k ∈ O.keys, k ∉ files.map File.Name) →
        pre = files ∧ added.length = O.keys.length) := by
  have hcalm := addFileToZip_calm L O env zipPath s files henv hf hs (fun k h => (hk k h).2)
  refine ⟨rewritten files O, (leftover files O).entries.map newEntry, hcalm.2.1,
    hcalm.2.2.2, rewritten_map_Name files O, ?_, ?_, ?_⟩
  · rw [leftover_entries, List.map_map]
    apply List.map_congr_left
    intro e he
    exact newEntry_pair e (hk e.1 (List.mem_keys_of_mem (List.mem_filter.1 he).1)).1
  · rw [leftover_entries, List.map_map, AList.keys, List.keys, List.filter_map]
    apply List.map_congr_left
    intro e _
    exact newEntry_Name e
  · intro h
    refine ⟨(rewritten_of_no_match files O h).1, ?_⟩
    rw [(rewritten_of_no_match files O h).2, List.length_map]
    simp [AList.keys, List.keys]

/-- Witness of C3 (amended): an archive without the override name gets one new entry. -/
theorem unmatched_overrides_appended_witness :
    PatchEnv.calm.NoFailure ∧
    (world0 [entry "b.txt" [2]]).fs "/data/app.jar" = some (Content.archive [entry "b.txt" [2]]) ∧
    SourceAccepted [entry "b.txt" [2]] hello ∧ KeysAccepted hello ∧
    ∃ pre added,
      (addFileToZip unixPaths hello PatchEnv.calm "/data/app.jar"
        (world0 [entry "b.txt" [2]])).written = pre ++ added ∧
      (((world0 [entry "b.txt" [2]]).fs (tempName unixPaths "/data/app.jar") = none ∨
          PatchEnv.calm.staleLonger = false) →
        (addFileToZip unixPaths hello PatchEnv.calm "/data/app.jar"
          (world0 [entry "b.txt" [2]])).world.archiveAt "/data/app.jar" =
            some (pre ++ added)) ∧
      pre.map File.Name = [entry "b.txt" [2]].map File.Name ∧
      added.map (fun f => (f.Name, f.body)) =
        (hello.entries.filter
          (fun e => decide (e.1 ∉ [entry "b.txt" [2]].map File.Name))).map
          (fun e => (e.1, e.2)) ∧
      added.map File.Name =
        hello.keys.filter (fun k => decide (k ∉ [entry "b.txt" [2]].map File.Name)) ∧
      ((∀ k ∈ hello.keys, k ∉ [entry "b.txt" [2]].map File.Name) →
        pre = [entry "b.txt" [2]] ∧ added.length = hello.keys.length) :=
  ⟨by decide, by decide, by decide, by decide,
    unmatched_overrides_appended unixPaths hello PatchEnv.calm "/data/app.jar"
      (world0 [entry "b.txt" [2]]) [entry "b.txt" [2]] (by decide) (by decide) (by decide)
      (by decide)⟩

/-! ## Patching twice -/

theorem rewritten_bodies (xs : List File) :
    ∀ m : ByteMap, (∀ k ∈ m.keys, isDirName k = false) →
      (∀ k v, m.lookup k = some v → ∀ f tl,
        xs.filter (fun g => decide (g.Name = k)) = f :: tl → f.body = v) →
      (rewritten xs m).map File.body = xs.map File.body := by
  induction xs with
  | nil => intro m _ _; rfl
  | cons f rest ih =>
    intro m hd hset
    cases hl : m.lookup f.Name with
    | none =>
      have hset1 : ∀ k v, m.lookup k = some v → ∀ g tl,
          rest.filter (fun x => decide (x.Name = k)) = g :: tl → g.body = v := by
        intro k v hk g tl hg
        have hne : f.Name ≠ k := by
          intro h; rw [h, hk] at hl; exact absurd hl (by simp)
        exact hset k v hk g tl (by simp only [List.filter_cons, hne, decide_False,
          Bool.false_eq_true, if_false, hg])
      simp only [rewritten, hl, List.map_cons, ih m hd hset1]
    | some body =>
      have hk0 : f.Name ∈ m.keys := mem_keys_of_lookup hl
      have hb : f.body = body :=
        hset f.Name body hl f (rest.filter (fun x => decide (x.Name = f.Name)))
          (by simp [List.filter_cons])
      have hd1 : ∀ k ∈ (m.erase f.Name).keys, isDirName k = false := by
        intro k hk
        exact hd k (AList.mem_keys.1 (AList.mem_erase.1 (AList.mem_keys.2 hk)).2)
      have hset1 : ∀ k v, (m.erase f.Name).lookup k = some v → ∀ g tl,
          rest.filter (fun x => decide (x.Name = k)) = g :: tl → g.body = v := by
        intro k v hk g tl hg
        have hne : k ≠ f.Name := by
          intro h; rw [h, AList.lookup_erase] at hk; exact absurd hk (by simp)
        rw [AList.lookup_erase_ne hne] at hk
        have hne1 : f.Name ≠ k := fun h => hne h.symm
        exact hset k v hk g tl (by simp only [List.filter_cons, hne1, decide_False,
          Bool.false_eq_true, if_false, hg])
      simp only [rewritten, hl, List.map_cons, ih _ hd1 hset1]
      rw [madeEntry_body _ _ (hd _ hk0), hb]

theorem patched_names (files : List File) (m : ByteMap) :
    ∀ k ∈ m.keys, k ∈ (patched files m).map File.Name := by
  intro k hk
  rw [patched, List.map_append, rewritten_map_Name, List.mem_append]
  by_cases h : k ∈ files.map File.Name
  · exact Or.inl h
  · right
    obtain ⟨e, he, rfl⟩ := List.mem_map.1 (show k ∈ m.entries.map Sigma.fst from hk)
    rw [leftover_entries]
    exact List.mem_map.2 ⟨newEntry e, List.mem_map.2 ⟨e, List.mem_filter.2 ⟨he, by simpa using h⟩,
      rfl⟩, newEntry_Name e⟩

theorem patched_twice (files : List File) (m : ByteMap) :
    patched (patched files m) m = rewritten (patched files m) m := by
  have h : (leftover (patched files m) m).entries = [] := by
    rw [leftover_entries]
    apply List.filter_eq_nil_iff.2
    intro e he
    have := patched_names files m e.1 (List.mem_keys_of_mem he)
    simpa using this
  conv_lhs => rw [patched, h]
  simp

theorem archiveAt_some {s : World} {p : String} {files : List File}
    (h : s.archiveAt p = some files) : s.fs p = some (Content.archive files) := by
  unfold World.archiveAt at h
  split at h
  · rename_i fs1 heq
    rw [heq]
    simpa using h
  · exact absurd h (by simp)

/-- C10 as stated fails: the second patch writes another header for the entry it rewrites.
On `plainArchive` the first run appends one extended-timestamp field (9 bytes) to `Extra`
of the entry `a/test.txt`, the second run a second one, so the two entry lists differ. -/
theorem second_patch_counterexample :
    (addFileToZip unixPaths hello PatchEnv.calm "/data/app.jar"
      (world0 plainArchive)).world.archiveAt "/data/app.jar" =
      some (addFileToZip unixPaths hello PatchEnv.calm "/data/app.jar"
        (world0 plainArchive)).written ∧
    (addFileToZip unixPaths hello PatchEnv.calm "/data/app.jar"
      (world0 plainArchive)).written.map (fun f => (f.Name, f.hdr.Extra.length)) =
        [("b.txt", 0), ("a/test.txt", 9), ("c.txt", 0)] ∧
    (addFileToZip unixPaths hello PatchEnv.calm "/data/app.jar"
      (addFileToZip unixPaths hello PatchEnv.calm "/data/app.jar"
        (world0 plainArchive)).world).written.map (fun f => (f.Name, f.hdr.Extra.length)) =
        [("b.txt", 0), ("a/test.txt", 18), ("c.txt", 0)] ∧
    (addFileToZip unixPaths hello PatchEnv.calm "/data/app.jar"
      (addFileToZip unixPaths hello PatchEnv.calm "/data/app.jar"
        (world0 plainArchive)).world).written ≠
      (addFileToZip unixPaths hello PatchEnv.calm "/data/app.jar"
        (world0 plainArchive)).written := by
  decide

/-- C10 (amended): when no call fails in either run, `CreateHeader` accepts the headers it
is given in both, no key of the overrides ends in a slash and the first run does not write
over a longer older temporary file, patching the archive that a first run of `addFileToZip`
left at `zipPath` once more with the same overrides writes an entry list with the same
names in the same order and the same contents, in which the entries not named by a key
are the same entries; the headers of the entries named by a key are written anew and need
not be the same. -/
theorem patch_idempotent (L : PathLib) (O : ByteMap) (env1 env2 : PatchEnv)
    (zipPath : String) (s : World) (files : List File) (h1 : env1.NoFailure)
    (h2 : env2.NoFailure) (hf : s.fs zipPath = some (Content.archive files))
    (hst : s.fs (tempName L zipPath) = none ∨ env1.staleLonger = false)
    (hs : SourceAccepted files O) (hk : KeysAccepted O)
    (hs2 : SourceAccepted (addFileToZip L O env1 zipPath s).written O) :
    ∃ out1 out2, (addFileToZip L O env1 zipPath s).written = out1 ∧
      (addFileToZip L O env1 zipPath s).world.archiveAt zipPath = some out1 ∧
      (addFileToZip L O env2 zipPath (addFileToZip L O env1 zipPath s).world).written = out2 ∧
      out2.map File.Name = out1.map File.Name ∧
      out2.map File.body = out1.map File.body ∧
      out2.filter (fun f => decide (f.Name ∉ O.keys)) =
        out1.filter (fun f => decide (f.Name ∉ O.keys)) := by
  have hka : ∀ k ∈ O.keys, Accepted (newHeader k) := fun k h => (hk k h).2
  have hkd : ∀ k ∈ O.keys, isDirName k = false := fun k h => (hk k h).1
  have r1 := addFileToZip_calm L O env1 zipPath s files h1 hf hs hka
  rw [r1.2.1] at hs2
  have r2 := addFileToZip_calm L O env2 zipPath _ (patched files O) h2
    (archiveAt_some (r1.2.2.2 hst)) hs2 hka
  refine ⟨patched files O, patched (patched files O) O, r1.2.1, r1.2.2.2 hst, r2.2.1, ?_, ?_,
    ?_⟩
  · rw [patched_twice, rewritten_map_Name]
  · rw [patched_twice]
    apply rewritten_bodies _ O hkd
    intro k v hl f tl hfl
    obtain ⟨h, _, he⟩ := named_entries files O k v hl (hkd k (mem_keys_of_lookup hl))
    rw [he] at hfl
    simp only [List.cons.injEq] at hfl
    rw [← hfl.1]
  · rw [patched_twice]
    exact rewritten_filter_unnamed _ O.keys O (fun k hk => hk)

/-- Witness of C10 (amended): patching twice the archive with the name `a/test.txt`
twice. -/
theorem patch_idempotent_witness :
    PatchEnv.calm.NoFailure ∧
    (world0 dupArchive).fs "/data/app.jar" = some (Content.archive dupArchive) ∧
    ((world0 dupArchive).fs (tempName unixPaths "/data/app.jar") = none ∨
      PatchEnv.calm.staleLonger = false) ∧
    SourceAccepted dupArchive hello ∧ KeysAccepted hello ∧
    SourceAccepted (addFileToZip unixPaths hello PatchEnv.calm "/data/app.jar"
      (world0 dupArchive)).written hello ∧
    ∃ out1 out2, (addFileToZip unixPaths hello PatchEnv.calm "/data/app.jar"
        (world0 dupArchive)).written = out1 ∧
      (addFileToZip unixPaths hello PatchEnv.calm "/data/app.jar"
        (world0 dupArchive)).world.archiveAt "/data/app.jar" = some out1 ∧
      (addFileToZip unixPaths hello PatchEnv.calm "/data/app.jar"
        (addFileToZip unixPaths hello PatchEnv.calm "/data/app.jar"
          (world0 dupArchive)).world).written = out2 ∧
      out2.map File.Name = out1.map File.Name ∧
      out2.map File.body = out1.map File.body ∧
      out2.filter (fun f => decide (f.Name ∉ hello.keys)) =
        out1.filter (fun f => decide (f.Name ∉ hello.keys)) :=
  ⟨by decide, by decide, by decide, by decide, by decide, by decide,
    patch_idempotent unixPaths hello PatchEnv.calm PatchEnv.calm "/data/app.jar"
      (world0 dupArchive) dupArchive (by decide) (by decide) (by decide) (by decide)
      (by decide) (by decide) (by decide)⟩

/-! ## The sequence of calls of a run -/

theorem copyLoop_trace (files : List File) :
    ∀ j : Job, ∃ ext, (∀ x ∈ ext, Effect.inLoop x = true) ∧
      (jobOf (copyLoop files j)).trace = j.trace ++ ext := by
  induction files with
  | nil => intro j; exact ⟨[], by simp, by simp [copyLoop, jobOf]⟩
  | cons f rest ih =>
    intro j
    cases hl : j.localFiles.lookup f.Name with
    | none =>
      obtain ⟨ext, h1, h2⟩ := ih ⟨j.localFiles, j.zipWriter.Copy f j.fault, j.faults.tail,
        j.trace ++ [Effect.copy f]⟩
      refine ⟨Effect.copy f :: ext, ?_, ?_⟩
      · intro x hx
        rcases List.mem_cons.1 hx with rfl | hx
        · rfl
        · exact h1 x hx
      · simp only [copyLoop, copyStep, hl, h2]
        simp
    | some body =>
      cases hc : j.zipWriter.createAndWrite f.hdr body j.fault with
      | error w =>
        refine ⟨[Effect.createHeader f.hdr], ?_, ?_⟩
        · intro x hx
          rw [List.mem_singleton.1 hx]
          rfl
        · simp only [copyLoop, copyStep, hl, hc, jobOf]
      | ok w =>
        obtain ⟨ext, h1, h2⟩ := ih ⟨j.localFiles.erase f.Name, w, j.faults.tail,
          j.trace ++ [Effect.createHeader f.hdr, Effect.write body]⟩
        refine ⟨Effect.createHeader f.hdr :: Effect.write body :: ext, ?_, ?_⟩
        · intro x hx
          rcases List.mem_cons.1 hx with rfl | hx
          · rfl
          · rcases List.mem_cons.1 hx with rfl | hx
            · rfl
            · exact h1 x hx
        · simp only [copyLoop, copyStep, hl, hc, h2]
          simp

theorem addLoop_trace (l : List (Sigma fun _ : String => Bytes)) :
    ∀ j : Job, ∃ ext, (∀ x ∈ ext, Effect.inLoop x = true) ∧
      (jobOf (addLoop l j)).trace = j.trace ++ ext := by
  induction l with
  | nil => intro j; exact ⟨[], by simp, by simp [addLoop, jobOf]⟩
  | cons e rest ih =>
    intro j
    cases hc : j.zipWriter.createAndWrite (newHeader e.1) e.2 j.fault with
    | error w =>
      refine ⟨[Effect.create e.1], ?_, ?_⟩
      · intro x hx
        rw [List.mem_singleton.1 hx]
        rfl
      · simp only [addLoop, addStep, hc, jobOf]
    | ok w =>
      obtain ⟨ext, h1, h2⟩ := ih ⟨j.localFiles, w, j.faults.tail,
        j.trace ++ [Effect.create e.1, Effect.write e.2]⟩
      refine ⟨Effect.create e.1 :: Effect.write e.2 :: ext, ?_, ?_⟩
      · intro x hx
        rcases List.mem_cons.1 hx with rfl | hx
        · rfl
        · rcases List.mem_cons.1 hx with rfl | hx
          · rfl
          · exact h1 x hx
      · simp only [addLoop, addStep, hc, h2]
        simp

theorem writeEntries_trace (files : List File) (j : Job) :
    ∃ ext, (∀ x ∈ ext, Effect.inLoop x = true) ∧
      (jobOf (writeEntries files j)).trace = j.trace ++ ext := by
  obtain ⟨ext1, h1, h2⟩ := copyLoop_trace files j
  cases hc : copyLoop files j with
  | error j1 =>
    refine ⟨ext1, h1, ?_⟩
    rw [hc] at h2
    simpa [writeEntries, hc, jobOf] using h2
  | ok j1 =>
    rw [hc] at h2
    obtain ⟨ext2, h3, h4⟩ := addLoop_trace j1.localFiles.entries j1
    refine ⟨ext1 ++ ext2, ?_, ?_⟩
    · intro x hx
      rcases List.mem_append.1 hx with hx | hx
      · exact h1 x hx
      · exact h3 x hx
    · simp only [writeEntries, hc, h4]
      simp only [jobOf] at h2
      rw [h2, List.append_assoc]

/-- The three ways a run of `addFileToZip` can go, with the calls made in each. -/
theorem addFileToZip_shape (L : PathLib) (O : ByteMap) (env : PatchEnv) (zipPath : String)
    (s : World) :
    ((addFileToZip L O env zipPath s).result = Outcome.success ∧
      (addFileToZip L O env zipPath s).world.shouldIgnore = s.shouldIgnore.insert zipPath true ∧
      ∃ ext, (∀ x ∈ ext, Effect.inLoop x = true) ∧
        (addFileToZip L O env zipPath s).trace =
          ([Effect.openReader zipPath, Effect.openFile (tempName L zipPath)] ++ ext) ++
            ([Effect.mark zipPath, Effect.rename (tempName L zipPath) zipPath] ++ deferred)) ∨
    ((∃ e, (addFileToZip L O env zipPath s).result = Outcome.failure e) ∧
      (addFileToZip L O env zipPath s).world = s ∧
      ((addFileToZip L O env zipPath s).trace = [Effect.openReader zipPath] ∨
        (addFileToZip L O env zipPath s).trace = [Effect.openReader zipPath,
          Effect.openFile (tempName L zipPath), Effect.closeReader])) ∨
    ((addFileToZip L O env zipPath s).result = Outcome.panicked ∧
      (addFileToZip L O env zipPath s).world.shouldIgnore = s.shouldIgnore ∧
      ∃ ext, (∀ x ∈ ext, Effect.inLoop x = true) ∧
        (addFileToZip L O env zipPath s).trace =
          ([Effect.openReader zipPath, Effect.openFile (tempName L zipPath)] ++ ext) ++
            deferred) := by
  cases ho : openReader env s.fs zipPath with
  | none =>
    have hrun : addFileToZip L O env zipPath s =
        ⟨Outcome.failure PatchError.openReader, s, [], [Effect.openReader zipPath]⟩ := by
      simp only [addFileToZip, ho]
    rw [hrun]
    exact Or.inr (Or.inl ⟨⟨_, rfl⟩, rfl, Or.inl rfl⟩)
  | some files =>
    cases ht : env.tempFails with
    | true =>
      have hrun : addFileToZip L O env zipPath s =
          ⟨Outcome.failure PatchError.openFile, s, [], [Effect.openReader zipPath,
            Effect.openFile (tempName L zipPath), Effect.closeReader]⟩ := by
        simp only [addFileToZip, ho, ht, if_true]
      rw [hrun]
      exact Or.inr (Or.inl ⟨⟨_, rfl⟩, rfl, Or.inr rfl⟩)
    | false =>
      obtain ⟨ext, h1, h2⟩ := writeEntries_trace files ⟨copyFiles O, ⟨[], false⟩, env.faults,
        [Effect.openReader zipPath, Effect.openFile (tempName L zipPath)]⟩
      cases hw : writeEntries files ⟨copyFiles O, ⟨[], false⟩, env.faults,
        [Effect.openReader zipPath, Effect.openFile (tempName L zipPath)]⟩ with
      | error j =>
        rw [hw] at h2
        simp only [jobOf] at h2
        have hrun : (addFileToZip L O env zipPath s).result = Outcome.panicked ∧
            (addFileToZip L O env zipPath s).world.shouldIgnore = s.shouldIgnore ∧
            (addFileToZip L O env zipPath s).trace = j.trace ++ deferred := by
          simp only [addFileToZip, ho, ht, hw, Bool.false_eq_true, if_false, and_self]
        refine Or.inr (Or.inr ⟨hrun.1, hrun.2.1, ext, h1, ?_⟩)
        rw [hrun.2.2, h2]
      | ok j =>
        rw [hw] at h2
        simp only [jobOf] at h2
        have hrun : (addFileToZip L O env zipPath s).result = Outcome.success ∧
            (addFileToZip L O env zipPath s).world.shouldIgnore =
              s.shouldIgnore.insert zipPath true ∧
            (addFileToZip L O env zipPath s).trace = j.trace ++
              [Effect.mark zipPath, Effect.rename (tempName L zipPath) zipPath] ++
                deferred := by
          simp only [addFileToZip, ho, ht, hw, Bool.false_eq_true, if_false, and_self]
        refine Or.inl ⟨hrun.1, hrun.2.1, ext, h1, ?_⟩
        rw [hrun.2.2, h2]
        simp

theorem split_after (r : Effect) :
    ∀ (xs ys pre post : List Effect), (∀ x ∈ xs, x ≠ r) → xs ++ ys = pre ++ r :: post →
      ∃ pre2, pre = xs ++ pre2 ∧ ys = pre2 ++ r :: post := by
  intro xs
  induction xs with
  | nil => intro ys pre post _ h; exact ⟨pre, rfl, by simpa using h⟩
  | cons x rest ih =>
    intro ys pre post hx h
    cases pre with
    | nil =>
      simp only [List.cons_append, List.nil_append, List.cons.injEq] at h
      exact absurd h.1 (hx x (List.mem_cons_self x rest))
    | cons p pre1 =>
      simp only [List.cons_append, List.cons.injEq] at h
      obtain ⟨pre2, h1, h2⟩ := ih ys pre1 post
        (fun y hy => hx y (List.mem_cons_of_mem x hy)) h.2
      exact ⟨pre2, by rw [h.1, h1]; rfl, h2⟩

theorem loop_part_ne (zipPath tmp : String) (ext : List Effect)
    (h : ∀ x ∈ ext, Effect.inLoop x = true) (r : Effect) (hr : Effect.inLoop r = false)
    (hr1 : r ≠ Effect.openReader zipPath) (hr2 : r ≠ Effect.openFile tmp) :
    ∀ x ∈ [Effect.openReader zipPath, Effect.openFile tmp] ++ ext, x ≠ r := by
  intro x hx hxr
  subst hxr
  rcases List.mem_append.1 hx with hx | hx
  · rcases List.mem_cons.1 hx with rfl | hx
    · exact hr1 rfl
    · rcases List.mem_cons.1 hx with rfl | hx
      · exact hr2 rfl
      · exact absurd hx (List.not_mem_nil _)
  · rw [h x hx] at hr
    exact absurd hr (by simp)

theorem mem_deferred {c : Effect} (hc : c ∈ deferred) :
    c = Effect.closeWriter ∨ c = Effect.closeFile ∨ c = Effect.closeReader := by
  simpa [deferred] using hc

theorem tail_split (zipPath tmp : String) (c : Effect) (hc : c ∈ deferred)
    (pre2 post : List Effect)
    (h : [Effect.mark zipPath, Effect.rename tmp zipPath] ++ deferred = pre2 ++ c :: post) :
    Effect.mark zipPath ∈ pre2 ∧ Effect.rename tmp zipPath ∈ pre2 := by
  rcases pre2 with _ | ⟨a, _ | ⟨b, l⟩⟩
  · simp only [List.cons_append, List.nil_append, List.cons.injEq] at h
    rcases mem_deferred hc with h1 | h1 | h1 <;> rw [h1] at h <;> exact absurd h.1 (by simp)
  · simp only [List.cons_append, List.nil_append, List.cons.injEq] at h
    rcases mem_deferred hc with h1 | h1 | h1 <;> rw [h1] at h <;>
      exact absurd h.2.1 (by simp)
  · simp only [List.cons_append, List.nil_append, List.cons.injEq] at h
    rw [← h.1, ← h.2.1]
    simp

theorem rename_split (zipPath tmp oldp newp : String) (pre2 post : List Effect)
    (h : [Effect.mark zipPath, Effect.rename tmp zipPath] ++ deferred =
      pre2 ++ Effect.rename oldp newp :: post) :
    pre2 = [Effect.mark zipPath] ∧ oldp = tmp ∧ newp = zipPath := by
  rcases pre2 with _ | ⟨a, _ | ⟨b, _ | ⟨c, _ | ⟨d, _ | ⟨e, l⟩⟩⟩⟩⟩ <;>
    simp [deferred] at h
  · obtain ⟨h1, h2, _⟩ := h
    exact ⟨by rw [h1], h2.1.symm, h2.2.symm⟩

/-- C5: when `addFileToZip(zipPath)` returns an error, the run has called neither
`os.Rename` nor set a marker, the file at `zipPath` is what it was before the run, and
`shouldIgnore` is unchanged. -/
theorem error_leaves_archive (L : PathLib) (O : ByteMap) (env : PatchEnv) (zipPath : String)
    (s : World) (e : PatchError)
    (h : (addFileToZip L O env zipPath s).result = Outcome.failure e) :
    (∀ a b, Effect.rename a b ∉ (addFileToZip L O env zipPath s).trace) ∧
    (∀ p, Effect.mark p ∉ (addFileToZip L O env zipPath s).trace) ∧
    (addFileToZip L O env zipPath s).world.fs zipPath = s.fs zipPath ∧
    (addFileToZip L O env zipPath s).world.shouldIgnore = s.shouldIgnore := by
  rcases addFileToZip_shape L O env zipPath s with ⟨h1, _⟩ | ⟨_, h2, h3⟩ | ⟨h1, _⟩
  · rw [h1] at h
    exact absurd h (by simp)
  · refine ⟨?_, ?_, by rw [h2], by rw [h2]⟩
    · intro a b
      rcases h3 with h3 | h3 <;> rw [h3] <;> simp
    · intro p
      rcases h3 with h3 | h3 <;> rw [h3] <;> simp
  · rw [h1] at h
    exact absurd h (by simp)

/-- Witness of C5: `os.OpenFile` on the temporary file fails, in a world with an archive at
the path, another file, and a marked path. -/
theorem error_leaves_archive_witness :
    (addFileToZip unixPaths hello ⟨false, true, [], false, false, false⟩ "/data/app.jar"
      world1).result = Outcome.failure PatchError.openFile ∧
    world1.fs "/data/app.jar" = some (Content.archive plainArchive) ∧
    world1.shouldIgnore.keys = ["/data/old.zip"] ∧
    ((∀ a b, Effect.rename a b ∉
      (addFileToZip unixPaths hello ⟨false, true, [], false, false, false⟩ "/data/app.jar"
        world1).trace) ∧
    (∀ p, Effect.mark p ∉
      (addFileToZip unixPaths hello ⟨false, true, [], false, false, false⟩ "/data/app.jar"
        world1).trace) ∧
    (addFileToZip unixPaths hello ⟨false, true, [], false, false, false⟩ "/data/app.jar"
      world1).world.fs "/data/app.jar" = world1.fs "/data/app.jar" ∧
    (addFileToZip unixPaths hello ⟨false, true, [], false, false, false⟩ "/data/app.jar"
      world1).world.shouldIgnore = world1.shouldIgnore) :=
  ⟨by decide, by decide, by decide,
    error_leaves_archive unixPaths hello ⟨false, true, [], false, false, false⟩
      "/data/app.jar" world1 PatchError.openFile (by decide)⟩

/-- C8: wherever a call of `os.Rename` stands in the sequence of calls of a run of
`addFileToZip(zipPath)`, it renames the temporary file onto `zipPath`, the write
`shouldIgnore[zipPath] = true` stands before it, no other rename does, and the run ends
with `zipPath` marked in `shouldIgnore`. -/
theorem mark_precedes_rename (L : PathLib) (O : ByteMap) (env : PatchEnv) (zipPath : String)
    (s : World) (oldp newp : String) (pre post : List Effect)
    (h : (addFileToZip L O env zipPath s).trace = pre ++ Effect.rename oldp newp :: post) :
    Effect.mark zipPath ∈ pre ∧ oldp = tempName L zipPath ∧ newp = zipPath ∧
    (∀ a b, Effect.rename a b ∉ pre) ∧
    zipPath ∈ (addFileToZip L O env zipPath s).world.shouldIgnore.keys := by
  have hmem : Effect.rename oldp newp ∈ (addFileToZip L O env zipPath s).trace := by
    rw [h]; simp
  rcases addFileToZip_shape L O env zipPath s with ⟨_, hw, ext, h1, h2⟩ | ⟨_, _, h3⟩ |
    ⟨_, _, ext, h1, h2⟩
  · rw [h2] at h
    obtain ⟨pre2, hp, hq⟩ := split_after (Effect.rename oldp newp) _ _ pre post
      (loop_part_ne zipPath (tempName L zipPath) ext h1 _ rfl (by simp) (by simp)) h
    obtain ⟨e1, e2, e3⟩ := rename_split zipPath (tempName L zipPath) oldp newp pre2 post hq
    refine ⟨by rw [hp, e1]; simp, e2, e3, ?_, ?_⟩
    · intro a b hab
      rw [hp, e1] at hab
      rcases List.mem_append.1 hab with hab | hab
      · exact loop_part_ne zipPath (tempName L zipPath) ext h1 (Effect.rename a b) rfl
          (by simp) (by simp) _ hab rfl
      · simp at hab
    · rw [hw]
      exact AList.mem_keys.1 ((AList.mem_insert _).2 (Or.inl rfl))
  · rcases h3 with h3 | h3 <;> rw [h3] at hmem <;> simp at hmem
  · rw [h2] at hmem
    rcases List.mem_append.1 hmem with hm | hm
    · exact absurd rfl (loop_part_ne zipPath (tempName L zipPath) ext h1
        (Effect.rename oldp newp) rfl (by simp) (by simp) _ hm)
    · simp [deferred] at hm

/-- Witness of C8: the calls of a run on the archive with pairwise distinct names. -/
theorem mark_precedes_rename_witness :
    (addFileToZip unixPaths hello PatchEnv.calm "/data/app.jar" (world0 plainArchive)).trace =
      callsBeforeRename ++ Effect.rename "/data/.app.jar.swp" "/data/app.jar" :: deferred ∧
    (Effect.mark "/data/app.jar" ∈ callsBeforeRename ∧
      "/data/.app.jar.swp" = tempName unixPaths "/data/app.jar" ∧
      "/data/app.jar" = "/data/app.jar" ∧
      (∀ a b, Effect.rename a b ∉ callsBeforeRename) ∧
      "/data/app.jar" ∈ (addFileToZip unixPaths hello PatchEnv.calm "/data/app.jar"
        (world0 plainArchive)).world.shouldIgnore.keys) :=
  ⟨by decide,
    mark_precedes_rename unixPaths hello PatchEnv.calm "/data/app.jar" (world0 plainArchive)
      "/data/.app.jar.swp" "/data/app.jar" callsBeforeRename deferred (by decide)⟩

/-- C9 as stated fails: in the successful run on `plainArchive`, the mark and the rename
both stand before the three closes, so none of the closes precedes either of them. -/
theorem closes_precede_counterexample :
    (addFileToZip unixPaths hello PatchEnv.calm "/data/app.jar" (world0 plainArchive)).result
      = Outcome.success ∧
    (addFileToZip unixPaths hello PatchEnv.calm "/data/app.jar" (world0 plainArchive)).trace =
      callsBeforeRename ++ Effect.rename "/data/.app.jar.swp" "/data/app.jar" ::
        [Effect.closeWriter, Effect.closeFile, Effect.closeReader] ∧
    ¬ Precedes Effect.closeWriter (Effect.mark "/data/app.jar")
      (addFileToZip unixPaths hello PatchEnv.calm "/data/app.jar" (world0 plainArchive)).trace ∧
    ¬ Precedes Effect.closeFile (Effect.mark "/data/app.jar")
      (addFileToZip unixPaths hello PatchEnv.calm "/data/app.jar" (world0 plainArchive)).trace ∧
    ¬ Precedes Effect.closeReader (Effect.mark "/data/app.jar")
      (addFileToZip unixPaths hello PatchEnv.calm "/data/app.jar" (world0 plainArchive)).trace ∧
    ¬ Precedes Effect.closeWriter (Effect.rename "/data/.app.jar.swp" "/data/app.jar")
      (addFileToZip unixPaths hello PatchEnv.calm "/data/app.jar" (world0 plainArchive)).trace ∧
    ¬ Precedes Effect.closeFile (Effect.rename "/data/.app.jar.swp" "/data/app.jar")
      (addFileToZip unixPaths hello PatchEnv.calm "/data/app.jar" (world0 plainArchive)).trace ∧
    ¬ Precedes Effect.closeReader (Effect.rename "/data/.app.jar.swp" "/data/app.jar")
      (addFileToZip unixPaths hello PatchEnv.calm "/data/app.jar"
        (world0 plainArchive)).trace := by
  have ht : (addFileToZip unixPaths hello PatchEnv.calm "/data/app.jar"
      (world0 plainArchive)).trace =
      callsBeforeRename ++ Effect.rename "/data/.app.jar.swp" "/data/app.jar" ::
        [Effect.closeWriter, Effect.closeFile, Effect.closeReader] := by decide
  have hm : callsBeforeRename ++ Effect.rename "/data/.app.jar.swp" "/data/app.jar" ::
      [Effect.closeWriter, Effect.closeFile, Effect.closeReader] =
      callsBeforeRename.dropLast ++ Effect.mark "/data/app.jar" ::
        (Effect.rename "/data/.app.jar.swp" "/data/app.jar" :: deferred) := by decide
  refine ⟨by decide, ht, ?_, ?_, ?_, ?_, ?_, ?_⟩
  · intro h
    exact absurd (h _ _ (ht.trans hm)) (by decide)
  · intro h
    exact absurd (h _ _ (ht.trans hm)) (by decide)
  · intro h
    exact absurd (h _ _ (ht.trans hm)) (by decide)
  · intro h
    exact absurd (h _ _ ht) (by decide)
  · intro h
    exact absurd (h _ _ ht) (by decide)
  · intro h
    exact absurd (h _ _ ht) (by decide)

/-- C9 (amended): in every run of `addFileToZip(zipPath)` that returns nil, the archive
writer, the temporary file and the source reader are closed, by the deferred calls, after
the suppression marker is set and after the rename: each close occurs, and wherever it
stands both the mark and the rename stand before it. -/
theorem closes_follow_rename (L : PathLib) (O : ByteMap) (env : PatchEnv) (zipPath : String)
    (s : World) (h : (addFileToZip L O env zipPath s).result = Outcome.success) :
    ∀ c ∈ [Effect.closeWriter, Effect.closeFile, Effect.closeReader],
      c ∈ (addFileToZip L O env zipPath s).trace ∧
      Precedes (Effect.mark zipPath) c (addFileToZip L O env zipPath s).trace ∧
      Precedes (Effect.rename (tempName L zipPath) zipPath) c
        (addFileToZip L O env zipPath s).trace := by
  intro c hc
  have hc1 : c ∈ deferred := hc
  rcases addFileToZip_shape L O env zipPath s with ⟨_, _, ext, h1, h2⟩ | ⟨⟨e, h3⟩, _⟩ |
    ⟨h3, _⟩
  · have hne : ∀ x ∈ [Effect.openReader zipPath, Effect.openFile (tempName L zipPath)] ++ ext,
        x ≠ c := by
      rcases mem_deferred hc1 with hh | hh | hh <;> rw [hh] <;>
        exact loop_part_ne zipPath (tempName L zipPath) ext h1 _ rfl (by simp) (by simp)
    have key : ∀ pre post, (addFileToZip L O env zipPath s).trace = pre ++ c :: post →
        Effect.mark zipPath ∈ pre ∧ Effect.rename (tempName L zipPath) zipPath ∈ pre := by
      intro pre post hsplit
      rw [h2] at hsplit
      obtain ⟨pre2, hp, hq⟩ := split_after c _ _ pre post hne hsplit
      obtain ⟨k1, k2⟩ := tail_split zipPath (tempName L zipPath) c hc1 pre2 post hq
      rw [hp]
      exact ⟨List.mem_append_right _ k1, List.mem_append_right _ k2⟩
    refine ⟨?_, fun pre post hs => (key pre post hs).1, fun pre post hs => (key pre post hs).2⟩
    rw [h2]
    exact List.mem_append_right _ (List.mem_append_right _ hc1)
  · rw [h3] at h
    exact absurd h (by simp)
  · rw [h3] at h
    exact absurd h (by simp)

/-- Witness of C9 (amended): the run on the archive with the name `a/test.txt` twice
returns nil. -/
theorem closes_follow_rename_witness :
    (addFileToZip unixPaths hello PatchEnv.calm "/data/app.jar" (world0 dupArchive)).result =
      Outcome.success ∧
    ∀ c ∈ [Effect.closeWriter, Effect.closeFile, Effect.closeReader],
      c ∈ (addFileToZip unixPaths hello PatchEnv.calm "/data/app.jar"
        (world0 dupArchive)).trace ∧
      Precedes (Effect.mark "/data/app.jar") c
        (addFileToZip unixPaths hello PatchEnv.calm "/data/app.jar"
          (world0 dupArchive)).trace ∧
      Precedes (Effect.rename (tempName unixPaths "/data/app.jar") "/data/app.jar") c
        (addFileToZip unixPaths hello PatchEnv.calm "/data/app.jar"
          (world0 dupArchive)).trace :=
  ⟨by decide,
    closes_follow_rename unixPaths hello PatchEnv.calm "/data/app.jar" (world0 dupArchive)
      (by decide)⟩

/-- C6, the code at two failing inputs.  With `os.Rename` failing, `addFileToZip` still
returns nil: the archive at the path is the source archive, unpatched, and the path is
marked all the same.  With the read of the first source entry failing inside `Copy`, it
returns nil as well, and the archive it leaves at the path lacks that entry. -/
theorem dropped_errors_return_nil :
    (addFileToZip unixPaths hello ⟨false, false, [], true, false, false⟩ "/data/app.jar"
      (world0 plainArchive)).result = Outcome.success ∧
    (addFileToZip unixPaths hello ⟨false, false, [], true, false, false⟩ "/data/app.jar"
      (world0 plainArchive)).world.archiveAt "/data/app.jar" = some plainArchive ∧
    "/data/app.jar" ∈ (addFileToZip unixPaths hello ⟨false, false, [], true, false, false⟩
      "/data/app.jar" (world0 plainArchive)).world.shouldIgnore.keys ∧
    (addFileToZip unixPaths hello ⟨false, false, [Fault.source], false, false, false⟩
      "/data/app.jar" (world0 plainArchive)).result = Outcome.success ∧
    ((addFileToZip unixPaths hello ⟨false, false, [Fault.source], false, false, false⟩
      "/data/app.jar" (world0 plainArchive)).world.archiveAt "/data/app.jar").map
        (List.map File.Name) = some ["a/test.txt", "c.txt"] := by
  decide

/-- The return value of `addFileToZip`: an error exactly when `zip.OpenReader` or
`os.OpenFile` fails; a failing write, copy or rename never makes it return an error. -/
theorem failure_iff (L : PathLib) (O : ByteMap) (env : PatchEnv) (zipPath : String)
    (s : World) :
    (∃ e, (addFileToZip L O env zipPath s).result = Outcome.failure e) ↔
      (openReader env s.fs zipPath = none ∨ env.tempFails = true) := by
  cases ho : openReader env s.fs zipPath with
  | none => simp [addFileToZip, ho]
  | some files =>
    cases ht : env.tempFails with
    | true => simp [addFileToZip, ho, ht]
    | false =>
      cases hw : writeEntries files ⟨copyFiles O, ⟨[], false⟩, env.faults,
        [Effect.openReader zipPath, Effect.openFile (tempName L zipPath)]⟩ <;>
        simp [addFileToZip, ho, ht, hw]

/-! ## The event dispatcher and the suppression cache -/

theorem ignored_iff (m : IgnoreMap) (p : String) : ignored m p = true ↔ p ∈ m.keys := by
  unfold ignored
  rw [AList.lookup_isSome, AList.mem_keys]

theorem hasOp_iff (op bit : Nat) : hasOp op bit = true ↔ op &&& bit = bit := by
  simp [hasOp]

theorem watchPart_cases (cfg : Config) (e : Event) (info : FileInfo) :
    watchPart cfg e info = [] ∨ watchPart cfg e info = [Action.watcherAdd e.Name] := by
  unfold watchPart
  split_ifs <;> simp

theorem goPatch_not_mem_watchPart (cfg : Config) (e : Event) (info : FileInfo) (p : String) :
    Action.goPatch p ∉ watchPart cfg e info := by
  rcases watchPart_cases cfg e info with h | h <;> rw [h] <;> simp

theorem foldl_perform_world (addOk : Bool) (acts : List Action) :
    ∀ s : Sys, (acts.foldl (perform addOk) s).world = s.world := by
  induction acts with
  | nil => intro s; rfl
  | cons a rest ih =>
    intro s
    rw [List.foldl_cons, ih]
    cases a with
    | goPatch p => rfl
    | watcherAdd n =>
      simp only [perform]
      split_ifs <;> rfl

theorem foldl_perform_watchPart (addOk : Bool) (cfg : Config) (e : Event) (info : FileInfo)
    (s : Sys) : ((watchPart cfg e info).foldl (perform addOk) s).pending = s.pending := by
  rcases watchPart_cases cfg e info with h | h <;> rw [h]
  · rfl
  · simp only [List.foldl_cons, List.foldl_nil, perform]
    split_ifs <;> rfl

theorem foldl_erase_keys (ks : List String) :
    ∀ (m : IgnoreMap) (k : String),
      k ∈ (ks.foldl (fun acc x => acc.erase x) m).keys ↔ k ∈ m.keys ∧ k ∉ ks := by
  induction ks with
  | nil => intro m k; simp
  | cons x rest ih =>
    intro m k
    rw [List.foldl_cons, ih, ← AList.mem_keys, AList.mem_erase, AList.mem_keys]
    simp only [List.mem_cons, not_or]
    tauto

theorem resetAll_keys (m : IgnoreMap) : (resetAll m).keys = [] := by
  apply List.eq_nil_iff_forall_not_mem.2
  intro k hk
  have := (foldl_erase_keys m.keys m k).1 hk
  exact this.2 this.1

/-- C7: for a change notification, the dispatcher starts a patch, and then on the absolute
path of the event, exactly when `os.Stat` succeeded, the operation includes `CloseWrite`,
the path is a regular file, its extension is `.zip` or `.jar`, and the absolute path is no
key of `shouldIgnore`; when `os.Stat` fails it starts no patch and adds no watch. -/
theorem event_classification (cfg : Config) (m : IgnoreMap) (e : Event)
    (stat : Option FileInfo) (p : String) :
    (Action.goPatch p ∈ handleEvent cfg m e stat ↔
      p = cfg.paths.Abs e.Name ∧ ∃ info, stat = some info ∧
        e.Op &&& cfg.bits.CloseWrite = cfg.bits.CloseWrite ∧ info.IsRegular = true ∧
        (Ext e.Name = ".zip" ∨ Ext e.Name = ".jar") ∧ cfg.paths.Abs e.Name ∉ m.keys) ∧
    handleEvent cfg m e none = [] := by
  refine ⟨?_, rfl⟩
  cases stat with
  | none => simp [handleEvent]
  | some info =>
    have hw := goPatch_not_mem_watchPart cfg e info p
    simp only [handleEvent]
    by_cases h1 : hasOp e.Op cfg.bits.CloseWrite = true
    · have h1b := (hasOp_iff _ _).1 h1
      by_cases h2 : (info.IsRegular && (Ext e.Name == ".zip" || Ext e.Name == ".jar")) = true
      · have h2b : info.IsRegular = true ∧ (Ext e.Name = ".zip" ∨ Ext e.Name = ".jar") := by
          simpa using h2
        by_cases h3 : ignored m (cfg.paths.Abs e.Name) = true
        · have h3b := (ignored_iff _ _).1 h3
          simp only [h1, h2, h3, if_true, List.not_mem_nil, false_iff]
          rintro ⟨_, info1, _, _, _, _, hk⟩
          exact hk h3b
        · have h3b : cfg.paths.Abs e.Name ∉ m.keys := fun hk => h3 ((ignored_iff _ _).2 hk)
          simp only [h1, h2, h3, if_true, Bool.false_eq_true, if_false, List.mem_cons,
            Action.goPatch.injEq, hw, or_false]
          constructor
          · intro hp
            exact ⟨hp, info, rfl, h1b, h2b.1, h2b.2, h3b⟩
          · intro hp
            exact hp.1
      · simp only [h1, h2, if_true, Bool.false_eq_true, if_false, hw, false_iff]
        rintro ⟨_, info1, hs, _, hr, hx, _⟩
        cases hs
        exact h2 (by simpa using ⟨hr, hx⟩)
    · simp only [h1, Bool.false_eq_true, if_false, hw, false_iff]
      rintro ⟨_, info1, _, hc, _⟩
      exact h1 ((hasOp_iff _ _).2 hc)

theorem step_notify_world (cfg : Config) (s : Sys) (e : Event) (stat : Option FileInfo)
    (addOk : Bool) : (step cfg s (Input.notify e stat addOk)).world = s.world := by
  simp only [step]
  split_ifs
  · rfl
  · exact foldl_perform_world addOk _ s

theorem run_keeps_mark (L : PathLib) (O : ByteMap) (env : PatchEnv) (zipPath P : String)
    (s : World) (h : P ∈ s.shouldIgnore.keys) :
    P ∈ (addFileToZip L O env zipPath s).world.shouldIgnore.keys := by
  rcases addFileToZip_shape L O env zipPath s with ⟨_, hw, _⟩ | ⟨_, hw, _⟩ | ⟨_, hw, _⟩
  · rw [hw]
    exact AList.mem_keys.1 ((AList.mem_insert _).2 (Or.inr (AList.mem_keys.2 h)))
  · rw [hw]; exact h
  · rw [hw]; exact h

theorem step_keeps_mark (cfg : Config) (u : Sys) (i : Input) (P : String)
    (hi : i.isReset = false) (h : P ∈ u.world.shouldIgnore.keys) :
    P ∈ (step cfg u i).world.shouldIgnore.keys := by
  cases i with
  | notify e stat addOk => rw [step_notify_world]; exact h
  | sigusr1 => exact absurd hi (by simp [Input.isReset])
  | patch zipPath env =>
    simp only [step]
    split_ifs
    · exact h
    · exact run_keeps_mark _ _ _ _ _ _ h
    · exact h

theorem exec_keeps_mark (cfg : Config) (P : String) (inputs : List Input) :
    ∀ u : Sys, (∀ i ∈ inputs, i.isReset = false) → P ∈ u.world.shouldIgnore.keys →
      P ∈ (exec cfg u inputs).world.shouldIgnore.keys := by
  induction inputs with
  | nil => intro u _ h; exact h
  | cons i rest ih =>
    intro u hi h
    exact ih (step cfg u i) (fun x hx => hi x (List.mem_cons_of_mem i hx))
      (step_keeps_mark cfg u i P (hi i (List.mem_cons_self i rest)) h)

theorem notify_skipped (cfg : Config) (u : Sys) (P : String) (e : Event)
    (stat : Option FileInfo) (addOk : Bool) (h : P ∈ u.world.shouldIgnore.keys)
    (hP : cfg.paths.Abs e.Name = P) :
    (step cfg u (Input.notify e stat addOk)).pending = u.pending := by
  have hig : ignored u.world.shouldIgnore (cfg.paths.Abs e.Name) = true :=
    (ignored_iff _ _).2 (hP ▸ h)
  simp only [step]
  split_ifs
  · rfl
  · cases stat with
    | none => rfl
    | some info =>
      simp only [handleEvent, hig, if_true]
      split_ifs
      · rfl
      · exact foldl_perform_watchPart addOk cfg e info u
      · exact foldl_perform_watchPart addOk cfg e info u

theorem notify_after_reset (cfg : Config) (u : Sys) (e : Event) (info : FileInfo)
    (addOk : Bool) (hu : u.dead = false)
    (hc : e.Op &&& cfg.bits.CloseWrite = cfg.bits.CloseWrite) (hr : info.IsRegular = true)
    (hx : Ext e.Name = ".zip" ∨ Ext e.Name = ".jar") :
    (step cfg (step cfg u Input.sigusr1) (Input.notify e (some info) addOk)).pending =
      u.pending ++ [cfg.paths.Abs e.Name] := by
  have h1 : hasOp e.Op cfg.bits.CloseWrite = true := (hasOp_iff _ _).2 hc
  have h2 : (info.IsRegular && (Ext e.Name == ".zip" || Ext e.Name == ".jar")) = true := by
    simpa using ⟨hr, hx⟩
  have h3 : ignored (resetAll u.world.shouldIgnore) (cfg.paths.Abs e.Name) = false := by
    cases hh : ignored (resetAll u.world.shouldIgnore) (cfg.paths.Abs e.Name) with
    | false => rfl
    | true =>
      have := (ignored_iff _ _).1 hh
      rw [resetAll_keys] at this
      exact absurd this (List.not_mem_nil _)
  simp only [step, hu, Bool.false_eq_true, if_false, handleEvent, h1, h2, h3, if_true,
    List.foldl_cons, perform]
  exact foldl_perform_watchPart addOk cfg e info _

/-- C4: once a started run of `addFileToZip(P)` has returned nil, `P` is a key of
`shouldIgnore`; through every sequence of further steps without the SIGUSR1 reset (events
and patch runs) it stays one, and an event for `P` starts no patch and leaves the world,
the marker included, as it is; the reset leaves `shouldIgnore` without keys, and then a
close-write event for a regular `.zip` or `.jar` file at `P` starts a patch of `P`. -/
theorem suppression_until_reset (cfg : Config) (t : Sys) (P : String) (env : PatchEnv)
    (halive : t.dead = false) (hpend : P ∈ t.pending)
    (hrun : (addFileToZip cfg.paths cfg.filesToReplace env P t.world).result =
      Outcome.success) :
    P ∈ (step cfg t (Input.patch P env)).world.shouldIgnore.keys ∧
    (∀ inputs : List Input, (∀ i ∈ inputs, i.isReset = false) →
      P ∈ (exec cfg (step cfg t (Input.patch P env)) inputs).world.shouldIgnore.keys ∧
      ∀ (e : Event) (stat : Option FileInfo) (addOk : Bool), cfg.paths.Abs e.Name = P →
        (step cfg (exec cfg (step cfg t (Input.patch P env)) inputs)
          (Input.notify e stat addOk)).pending =
          (exec cfg (step cfg t (Input.patch P env)) inputs).pending ∧
        (step cfg (exec cfg (step cfg t (Input.patch P env)) inputs)
          (Input.notify e stat addOk)).world =
          (exec cfg (step cfg t (Input.patch P env)) inputs).world) ∧
    (∀ u : Sys, u.dead = false →
      (step cfg u Input.sigusr1).world.shouldIgnore.keys = [] ∧
      ∀ (e : Event) (info : FileInfo) (addOk : Bool), cfg.paths.Abs e.Name = P →
        e.Op &&& cfg.bits.CloseWrite = cfg.bits.CloseWrite → info.IsRegular = true →
        (Ext e.Name = ".zip" ∨ Ext e.Name = ".jar") →
        (step cfg (step cfg u Input.sigusr1) (Input.notify e (some info) addOk)).pending =
          u.pending ++ [P]) := by
  have h0 : P ∈ (step cfg t (Input.patch P env)).world.shouldIgnore.keys := by
    rcases addFileToZip_shape cfg.paths cfg.filesToReplace env P t.world with
      ⟨_, hw, _⟩ | ⟨⟨e, h3⟩, _⟩ | ⟨h3, _⟩
    · simp only [step, halive, Bool.false_eq_true, if_false, hpend, if_true, hw]
      exact AList.mem_keys.1 ((AList.mem_insert _).2 (Or.inl rfl))
    · rw [h3] at hrun
      exact absurd hrun (by simp)
    · rw [h3] at hrun
      exact absurd hrun (by simp)
  refine ⟨h0, ?_, ?_⟩
  · intro inputs hin
    have hk := exec_keeps_mark cfg P inputs _ hin h0
    refine ⟨hk, ?_⟩
    intro e stat addOk hP
    exact ⟨notify_skipped cfg _ P e stat addOk hk hP, step_notify_world cfg _ e stat addOk⟩
  · intro u hu
    refine ⟨?_, ?_⟩
    · simp only [step, hu, Bool.false_eq_true, if_false]
      exact resetAll_keys _
    · intro e info addOk hP hc hr hx
      rw [notify_after_reset cfg u e info addOk hu hc hr hx, hP]

/-- Witness of C4: the process `sys0`, whose started patch of `/data/app.jar` returns nil. -/
theorem suppression_until_reset_witness :
    sys0.dead = false ∧ "/data/app.jar" ∈ sys0.pending ∧
    (addFileToZip cfg0.paths cfg0.filesToReplace PatchEnv.calm "/data/app.jar" sys0.world).result
      = Outcome.success ∧
    ("/data/app.jar" ∈
      (step cfg0 sys0 (Input.patch "/data/app.jar" PatchEnv.calm)).world.shouldIgnore.keys ∧
    (∀ inputs : List Input, (∀ i ∈ inputs, i.isReset = false) →
      "/data/app.jar" ∈ (exec cfg0 (step cfg0 sys0 (Input.patch "/data/app.jar" PatchEnv.calm))
        inputs).world.shouldIgnore.keys ∧
      ∀ (e : Event) (stat : Option FileInfo) (addOk : Bool),
        cfg0.paths.Abs e.Name = "/data/app.jar" →
        (step cfg0 (exec cfg0 (step cfg0 sys0 (Input.patch "/data/app.jar" PatchEnv.calm))
          inputs) (Input.notify e stat addOk)).pending =
          (exec cfg0 (step cfg0 sys0 (Input.patch "/data/app.jar" PatchEnv.calm))
            inputs).pending ∧
        (step cfg0 (exec cfg0 (step cfg0 sys0 (Input.patch "/data/app.jar" PatchEnv.calm))
          inputs) (Input.notify e stat addOk)).world =
          (exec cfg0 (step cfg0 sys0 (Input.patch "/data/app.jar" PatchEnv.calm))
            inputs).world) ∧
    (∀ u : Sys, u.dead = false →
      (step cfg0 u Input.sigusr1).world.shouldIgnore.keys = [] ∧
      ∀ (e : Event) (info : FileInfo) (addOk : Bool),
        cfg0.paths.Abs e.Name = "/data/app.jar" →
        e.Op &&& cfg0.bits.CloseWrite = cfg0.bits.CloseWrite → info.IsRegular = true →
        (Ext e.Name = ".zip" ∨ Ext e.Name = ".jar") →
        (step cfg0 (step cfg0 u Input.sigusr1) (Input.notify e (some info) addOk)).pending =
          u.pending ++ ["/data/app.jar"])) :=
  ⟨by decide, by decide, by decide,
    suppression_until_reset cfg0 sys0 "/data/app.jar" PatchEnv.calm (by decide) (by decide)
      (by decide)⟩

end Zipcop
